import Mathlib

/-!
Verification development for the lab-report toolkit repository.

The development shallowly embeds the non-glue logic of the repository:

* the significant-digit resolver `_PDG_precision`
  (src/lab_tool.python/uncertainties_mod.python/idea_2/monkeypatch.py),
  together with the `first_digit` primitive of the upstream
  uncertainties library that it calls;
* the uarray post-processing of the table writers
  (src/lab_tool.python/write_table.py and
  src/labtool.python/labtool/src/functions.py): deletion of double
  quotes and the two regular-expression substitutions, implemented as
  deterministic left-to-right scanners with the same leftmost,
  non-overlapping match semantics as Python re.sub;
* the constructor validation of `Student`
  (src/labtool.python/labtool/src/classes.py), including the t-factor
  table lookup whose KeyError is rethrown as IndexError;
* the `CDContxt` context manager of the same file, as an explicit
  working-directory state transformer.

Numeric code is embedded over `ℚ` (the spec describes exact real
arithmetic; Python float representation issues are out of scope).
-/

namespace LabTool

/-! ### Definitions: significant-digit resolver

`uncertainties.core.first_digit` is
`int(math.floor(math.log10(abs(value))))` with the `ValueError` for a
zero argument caught and turned into the result `0`.  For a nonzero
rational `x`, `Int.log 10 |x|` is exactly `⌊log10 |x|⌋`. -/

/-- Embedding of `uncertainties.core.first_digit`: position of the first
significant digit, and `0` for a zero argument (the library catches the
`ValueError` from `math.log10` and returns `0` in that case). -/
def first_digit (x : ℚ) : ℤ :=
  if x = 0 then 0 else Int.log 10 |x|

/-- Embedding of `_PDG_precision` from
src/lab_tool.python/uncertainties_mod.python/idea_2/monkeypatch.py:
returns the pair (significant digits, rounded uncertainty). -/
def PDG_precision (x : ℚ) : ℕ × ℚ :=
  let exponent : ℤ := first_digit x
  let normalized_float : ℚ := x * (10 : ℚ) ^ (-exponent)
  if normalized_float ≤ 1.9 then
    (2, (⌈normalized_float * 10⌉ : ℚ) * (10 : ℚ) ^ (exponent - 1))
  else
    (1, (⌈normalized_float⌉ : ℚ) * (10 : ℚ) ^ exponent)

/-! ### Definitions: uarray post-processing of the table writers

The post-processing acts on the serialized csv string.  Its three steps
(write_table.py lines 59-68, functions.py lines 110-119):

1. `df_str.replace('"', '')` — delete every double quote;
2. the re.sub of the pattern digit, plus, slash, minus, digit with the
   replacement `\1 SYM \2`, where `SYM` is the
   two-character replacement `\pm` (a backslash followed by `pm`) in
   write_table.py and `+-` in functions.py;
3. `re.sub(r"\((\d+\.?\d*) SYM (\d+\.?\d*)\)e", r"\1 SYM \2 e", df_str)`.

Both substitutions are embedded as left-to-right scanners over the
character list; a scanner resumes after the text consumed by a match,
exactly like re.sub.  The skip argument of `pmSubA`/`sub3A` counts
characters that are part of an already-consumed match and are therefore
passed over without being reinspected. -/

/-- Step 1: `df_str.replace('"', '')` deletes all double quotes. -/
def stripQ (l : List Char) : List Char := l.filter (fun c => c != '"')

/-- Does the list start with a match of the pattern digit, plus, slash, minus, digit?  The
pattern inspects only the first five characters. -/
def pmHead5 : List Char → Bool
  | d1 :: c2 :: c3 :: c4 :: d2 :: _ =>
      d1.isDigit && (c2 == '+') && (c3 == '/') && (c4 == '-') && d2.isDigit
  | _ => false

/-- Step 2 scanner: the step-2 re.sub.  With
skip `0` it tries a match at the current position: on success it emits
`\1 SYM \2` (one space on each side of the symbol) and passes over the
four consumed characters (plus, slash, minus and the second digit);
otherwise it copies one character.
`t.getD 3 ' '` is the second captured digit. -/
def pmSubA (sym : List Char) : ℕ → List Char → List Char
  | _, [] => []
  | n+1, _ :: t => pmSubA sym n t
  | 0, c :: t =>
    if pmHead5 (c :: t) then
      c :: ' ' :: (sym ++ ' ' :: t.getD 3 ' ' :: pmSubA sym 4 t)
    else c :: pmSubA sym 0 t

/-- The substitution of step 2 applied from the start of the string. -/
def pmSub (sym l : List Char) : List Char := pmSubA sym 0 l

/-- Is there any occurrence of the pattern digit, plus, slash, minus, digit? -/
def hasPM : List Char → Bool
  | [] => false
  | c :: t => pmHead5 (c :: t) || hasPM t

/-- States of the matcher for the regular expression
`(\d+\.?\d*) SYM (\d+\.?\d*)\)e` (the part after the opening
parenthesis): `a1`/`a2` read the first group before/after its decimal
point, `lit` expects the given literal characters (the symbol and its
surrounding spaces), `b1`/`b2` read the second group, `ex` expects the
final `e`.  The initial state `a0` requires at least one digit. -/
inductive MSt where
  | a0 | a1 | a2 | lit (pending : List Char) | b1 | b2 | ex

/-- Prepend an emitted character to a match result and count it as
consumed. -/
def addC (c : Char) : Option (List Char × ℕ) → Option (List Char × ℕ)
  | none => none
  | some (cs, k) => some (c :: cs, k + 1)

/-- Deterministic matcher for the tail of the step-3 pattern (after the
opening parenthesis).  On success it returns the replacement text for
the whole match (the consumed text with the closing parenthesis turned
into a space, which yields `\1 SYM \2 e`) and the number of consumed
characters.  The groups `\d+\.?\d*` are matched by maximal munch; since
each group is followed in the pattern by a character that is neither a
digit nor a dot, this agrees with the backtracking semantics of
re.sub. -/
def mrun (sym : List Char) : MSt → List Char → Option (List Char × ℕ)
  | _, [] => none
  | MSt.a0, c :: l => if c.isDigit then addC c (mrun sym MSt.a1 l) else none
  | MSt.a1, c :: l =>
      if c.isDigit then addC c (mrun sym MSt.a1 l)
      else if c = '.' then addC c (mrun sym MSt.a2 l)
      else if c = ' ' then addC c (mrun sym (MSt.lit (sym ++ [' '])) l)
      else none
  | MSt.a2, c :: l =>
      if c.isDigit then addC c (mrun sym MSt.a2 l)
      else if c = ' ' then addC c (mrun sym (MSt.lit (sym ++ [' '])) l)
      else none
  | MSt.lit (p :: ps), c :: l =>
      if c = p then addC c (mrun sym (MSt.lit ps) l) else none
  | MSt.lit [], c :: l => if c.isDigit then addC c (mrun sym MSt.b1 l) else none
  | MSt.b1, c :: l =>
      if c.isDigit then addC c (mrun sym MSt.b1 l)
      else if c = '.' then addC c (mrun sym MSt.b2 l)
      else if c = ')' then addC ' ' (mrun sym MSt.ex l)
      else none
  | MSt.b2, c :: l =>
      if c.isDigit then addC c (mrun sym MSt.b2 l)
      else if c = ')' then addC ' ' (mrun sym MSt.ex l)
      else none
  | MSt.ex, c :: _ => if c = 'e' then some (['e'], 1) else none

/-- Step 3 scanner: `re.sub(r"\((\d+\.?\d*) SYM (\d+\.?\d*)\)e",
r"\1 SYM \2 e", s)`.  A match can only start at an opening parenthesis;
on success the replacement is emitted and the consumed characters are
passed over. -/
def sub3A (sym : List Char) : ℕ → List Char → List Char
  | _, [] => []
  | n+1, _ :: t => sub3A sym n t
  | 0, c :: t =>
    if c = '(' then
      match mrun sym MSt.a0 t with
      | some (cs, k) => cs ++ sub3A sym k t
      | none => '(' :: sub3A sym 0 t
    else c :: sub3A sym 0 t

/-- The substitution of step 3 applied from the start of the string. -/
def sub3 (sym l : List Char) : List Char := sub3A sym 0 l

/-- Is there any position where the step-3 pattern matches? -/
def has3 (sym : List Char) : List Char → Bool
  | [] => false
  | c :: t => ((c == '(') && (mrun sym MSt.a0 t).isSome) || has3 sym t

/-- The plus-minus symbol of write_table.py: the literal `\pm`. -/
def bsPm : List Char := ['\\', 'p', 'm']

/-- The plus-minus symbol of functions.py: the literal `+-`. -/
def pmTxt : List Char := ['+', '-']

/-- The full uarray post-processing: quote deletion, then the plus-slash-minus
substitution, then the parenthesis/exponent normalization. -/
def uarrayPost (sym l : List Char) : List Char := sub3 sym (pmSub sym (stripQ l))

/-- The uarray post-processing of write_table.py (LaTeX variant). -/
def formatLatex (l : List Char) : List Char := uarrayPost bsPm l

/-- The uarray post-processing of functions.py (plain-text variant). -/
def formatPlain (l : List Char) : List Char := uarrayPost pmTxt l

/-- A full match of the group pattern `\d+\.?\d*`: one or more digits,
then optionally a dot followed by zero or more digits. -/
def NumLit (l : List Char) : Prop :=
  ∃ D1 D2, l = D1 ++ D2 ∧ D1 ≠ [] ∧ (∀ c ∈ D1, c.isDigit = true) ∧
    (D2 = [] ∨ ∃ D3, D2 = '.' :: D3 ∧ ∀ c ∈ D3, c.isDigit = true)

/-- A full match of the group pattern after its first character:
`\d*\.?\d*`. -/
def NumTail (l : List Char) : Prop :=
  ∃ D1 D2, l = D1 ++ D2 ∧ (∀ c ∈ D1, c.isDigit = true) ∧
    (D2 = [] ∨ ∃ D3, D2 = '.' :: D3 ∧ ∀ c ∈ D3, c.isDigit = true)

/-- The matcher states reachable from the initial state for a given
symbol: any pending literal is a suffix of the symbol followed by a
space. -/
def GoodSt (sym : List Char) : MSt → Prop
  | MSt.lit x => x <:+ (sym ++ [' '])
  | _ => True

/-- The plus-minus symbols that occur in the source contain no opening
parenthesis and no digits; several structural facts about the step-3
scanner hold for any such symbol. -/
def SymOK (sym : List Char) : Prop :=
  '(' ∉ sym ∧ ∀ c ∈ sym, c.isDigit = false

/-! ### Definitions: Student constructor validation

`Student.__init__` (classes.py lines 246-275) first checks
`sigma not in [1, 2, 3]` and raises ValueError, then evaluates
`self.t_df.loc[len(series), str(sigma)]`; the class attribute `t_df` is
indexed by `list(range(2, 51))` with columns `"1"`, `"2"`, `"3"`, so the
lookup raises KeyError exactly when the length is outside 2..50, which
the constructor rethrows as IndexError. -/

inductive StudentErr where
  | valueError (msg : String)
  | indexError (msg : String)
deriving DecidableEq

/-- Column `"1"` of `Student.t_df` (rows for series lengths 2..50). -/
def t_col1 : List ℚ :=
  [1.84, 1.32, 1.2, 1.15, 1.11, 1.09, 1.08, 1.07, 1.06, 1.051, 1.045, 1.04, 1.036,
   1.033, 1.032, 1.031, 1.03, 1.03, 1.03, 1.03, 1.029, 1.028, 1.027, 1.026, 1.025,
   1.024, 1.022, 1.021, 1.02, 1.019, 1.018, 1.017, 1.016, 1.016, 1.015, 1.014, 1.014,
   1.013, 1.013, 1.012, 1.012, 1.012, 1.011, 1.011, 1.011, 1.011, 1.01, 1.01, 1.01]

/-- Column `"2"` of `Student.t_df` (rows for series lengths 2..50). -/
def t_col2 : List ℚ :=
  [13.97, 4.53, 3.31, 2.87, 2.65, 2.53, 2.43, 2.364, 2.32, 2.285, 2.255, 2.23, 2.209,
   2.191, 2.177, 2.165, 2.155, 2.147, 2.14, 2.133, 2.127, 2.121, 2.116, 2.111, 2.106,
   2.102, 2.097, 2.094, 2.09, 2.087, 2.083, 2.08, 2.078, 2.075, 2.072, 2.07, 2.068,
   2.066, 2.064, 2.062, 2.06, 2.059, 2.057, 2.056, 2.055, 2.053, 2.052, 2.051, 2.05]

/-- Column `"3"` of `Student.t_df` (rows for series lengths 2..50). -/
def t_col3 : List ℚ :=
  [235.8, 19.21, 9.22, 6.62, 5.51, 5.02, 4.53, 4.31, 4.09, 4.026, 3.962, 3.898, 3.834,
   3.77, 3.706, 3.642, 3.578, 3.514, 3.45, 3.433, 3.416, 3.399, 3.382, 3.365, 3.348,
   3.331, 3.314, 3.297, 3.28, 3.274, 3.268, 3.262, 3.256, 3.25, 3.244, 3.238, 3.232,
   3.226, 3.22, 3.214, 3.208, 3.202, 3.196, 3.19, 3.184, 3.178, 3.172, 3.166, 3.16]

/-- The column of `Student.t_df` selected by `str(sigma)`; `none` when
no such column exists. -/
def t_df_col (sigma : ℤ) : Option (List ℚ) :=
  if sigma = 1 then some t_col1
  else if sigma = 2 then some t_col2
  else if sigma = 3 then some t_col3
  else none

/-- `t_df.loc[n, str(sigma)]`: defined exactly for row labels 2..50 (the
index of `t_df` is `list(range(2, 51))`). -/
def t_df_lookup (n : ℕ) (sigma : ℤ) : Option ℚ :=
  match t_df_col sigma with
  | some col => if 2 ≤ n ∧ n ≤ 50 then some (col.getD (n - 2) 0) else none
  | none => none

/-- Embedding of the validation performed by `Student.__init__`, with
`seriesLen = len(series)`: ValueError for a sigma outside `[1, 2, 3]`
(checked first), then the `t_df` lookup whose KeyError is rethrown as
IndexError; on success the constructor proceeds with the looked-up
t-factor. -/
def Student_init (seriesLen : ℕ) (sigma : ℤ) : Except StudentErr ℚ :=
  if ¬(sigma = 1 ∨ sigma = 2 ∨ sigma = 3) then
    Except.error (StudentErr.valueError
      "Sigma must be amongst the following integers: [1, 2, 3]")
  else
    match t_df_lookup seriesLen sigma with
    | some t => Except.ok t
    | none => Except.error (StudentErr.indexError
        "Series is too big, maximum length is 50")

/-! ### Definitions: the CDContxt context manager

`CDContxt` (classes.py lines 26-43) records `getcwd()` on entry, then
changes directory to the given path (or, with no path, to the script
directory via `cd()`); `__exit__` always changes back to the recorded
directory.  The process state is reduced to its working directory, and
the with-statement is modelled by running enter, an arbitrary body that
may itself change directory and may end in an exception, and then exit
(which Python runs on both normal and exceptional termination of the
body). -/

structure CDState where
  cwd : String
deriving DecidableEq

def getcwd (s : CDState) : String := s.cwd

def chdir (p : String) (_s : CDState) : CDState := { cwd := p }

/-- `labtool.src.functions.cd()`: change to the directory of the
executing script, supplied here as the parameter `scriptDir`. -/
def cd (scriptDir : String) (s : CDState) : CDState := chdir scriptDir s

structure CDContxt where
  path : String

/-- `CDContxt.__enter__`: record the old directory, then change to
`self.path` if nonempty, else call `cd()`. -/
def CDContxt.enter (scriptDir : String) (m : CDContxt) (s : CDState) :
    String × CDState :=
  (getcwd s, if m.path ≠ "" then chdir m.path s else cd scriptDir s)

/-- `CDContxt.__exit__`: change back to the recorded directory,
unconditionally. -/
def CDContxt.exit (olddir : String) (s : CDState) : CDState := chdir olddir s

/-- A with-statement `with CDContxt(path): body`.  The body transforms
the state and reports normal termination (`Except.ok`) or an exception
(`Except.error`); `__exit__` runs in either case, as Python guarantees
for a context manager whose `__enter__` succeeded. -/
def withCDContxt (scriptDir : String) (m : CDContxt)
    (body : CDState → CDState × Except String Unit) (s : CDState) :
    CDState × Except String Unit :=
  let es := CDContxt.enter scriptDir m s
  let bodyRes := body es.2
  (CDContxt.exit es.1 bodyRes.1, bodyRes.2)

/-! ### Helper lemmas: resolver -/

theorem first_digit_of_pos {x : ℚ} (hx : 0 < x) :
    first_digit x = Int.log 10 x := by
  rw [first_digit, if_neg (ne_of_gt hx), abs_of_pos hx]

theorem zpow_ten_pos (e : ℤ) : (0 : ℚ) < (10 : ℚ) ^ e :=
  zpow_pos (by norm_num) e

/-- Uniqueness of the exponent: if `10^e ≤ x < 10^(e+1)` then
`first_digit x = e`. -/
theorem first_digit_eq_of_bounds {x : ℚ} {e : ℤ} (hx : 0 < x)
    (h1 : (10 : ℚ) ^ e ≤ x) (h2 : x < (10 : ℚ) ^ (e + 1)) :
    first_digit x = e := by
  rw [first_digit_of_pos hx]
  have hle : e ≤ Int.log 10 x := by
    rw [← Int.zpow_le_iff_le_log (by norm_num) hx]
    exact_mod_cast h1
  have hlt : Int.log 10 x < e + 1 := by
    rw [← Int.lt_zpow_iff_log_lt (by norm_num) hx]
    exact_mod_cast h2
  omega

/-- The exponent is determined by the normalized value lying in `[1, 10)`. -/
theorem first_digit_eq_of_div_bounds {x : ℚ} {e : ℤ} (hx : 0 < x)
    (h1 : 1 ≤ x / (10 : ℚ) ^ e) (h2 : x / (10 : ℚ) ^ e < 10) :
    first_digit x = e := by
  have hp := zpow_ten_pos e
  refine first_digit_eq_of_bounds hx ?_ ?_
  · calc (10 : ℚ) ^ e = 1 * (10 : ℚ) ^ e := (one_mul _).symm
      _ ≤ x / (10 : ℚ) ^ e * (10 : ℚ) ^ e := by
          exact mul_le_mul_of_nonneg_right h1 (le_of_lt hp)
      _ = x := div_mul_cancel₀ x (ne_of_gt hp)
  · calc x = x / (10 : ℚ) ^ e * (10 : ℚ) ^ e := (div_mul_cancel₀ x (ne_of_gt hp)).symm
      _ < 10 * (10 : ℚ) ^ e := by exact mul_lt_mul_of_pos_right h2 hp
      _ = (10 : ℚ) ^ (e + 1) := by
          rw [zpow_add_one₀ (by norm_num : (10 : ℚ) ≠ 0), mul_comm]

/-- The normalized value written with a negative power equals the
quotient form used by the spec. -/
theorem normalized_eq_div (x : ℚ) (e : ℤ) :
    x * (10 : ℚ) ^ (-e) = x / (10 : ℚ) ^ e := by
  rw [zpow_neg, div_eq_mul_inv]

/-- C1, main part: the rounded standard deviation never understates the
input. -/
theorem PDG_precision_snd_ge (x : ℚ) :
    x ≤ (PDG_precision x).2 := by
  rw [PDG_precision]
  set e := first_digit x with he
  set nf := x * (10 : ℚ) ^ (-e) with hnf
  have h10 : (10 : ℚ) ≠ 0 := by norm_num
  have hxe : nf * (10 : ℚ) ^ e = x := by
    rw [hnf, mul_assoc, ← zpow_add₀ h10, neg_add_cancel, zpow_zero, mul_one]
  have hsplit : (10 : ℚ) ^ e = 10 * (10 : ℚ) ^ (e - 1) := by
    rw [← zpow_one_add₀ h10]
    congr 1
    ring
  by_cases h : nf ≤ 1.9
  · rw [if_pos h]
    have h1 : nf * 10 ≤ ((⌈nf * 10⌉ : ℤ) : ℚ) := Int.le_ceil _
    calc x = nf * (10 : ℚ) ^ e := hxe.symm
      _ = nf * 10 * (10 : ℚ) ^ (e - 1) := by rw [hsplit, ← mul_assoc]
      _ ≤ ((⌈nf * 10⌉ : ℤ) : ℚ) * (10 : ℚ) ^ (e - 1) :=
          mul_le_mul_of_nonneg_right h1 (le_of_lt (zpow_ten_pos _))
  · rw [if_neg h]
    have h1 : nf ≤ ((⌈nf⌉ : ℤ) : ℚ) := Int.le_ceil _
    calc x = nf * (10 : ℚ) ^ e := hxe.symm
      _ ≤ ((⌈nf⌉ : ℤ) : ℚ) * (10 : ℚ) ^ e :=
          mul_le_mul_of_nonneg_right h1 (le_of_lt (zpow_ten_pos _))


/-- Branch computation of the resolver once the exponent bounds are
known: this is the case analysis of `_PDG_precision` with the normalized
value in quotient form. -/
theorem PDG_precision_eq_of_bounds {x : ℚ} {e : ℤ} (hx : 0 < x)
    (h1 : 1 ≤ x / (10 : ℚ) ^ e) (h2 : x / (10 : ℚ) ^ e < 10) :
    PDG_precision x =
      if x / (10 : ℚ) ^ e ≤ 1.9 then
        (2, ((⌈x / (10 : ℚ) ^ e * 10⌉ : ℤ) : ℚ) * (10 : ℚ) ^ (e - 1))
      else
        (1, ((⌈x / (10 : ℚ) ^ e⌉ : ℤ) : ℚ) * (10 : ℚ) ^ e) := by
  simp only [PDG_precision, first_digit_eq_of_div_bounds hx h1 h2, normalized_eq_div]

/-- For nonpositive input the normalized value is nonpositive, so the
resolver takes the two-digit branch. -/
theorem PDG_precision_fst_of_nonpos {x : ℚ} (hx : x ≤ 0) :
    (PDG_precision x).1 = 2 := by
  have hp : (0 : ℚ) ≤ (10 : ℚ) ^ (-(first_digit x)) := (zpow_ten_pos _).le
  have hnf : x * (10 : ℚ) ^ (-(first_digit x)) ≤ 1.9 :=
    le_trans (mul_nonpos_iff.mpr (Or.inr ⟨hx, hp⟩)) (by norm_num)
  simp only [PDG_precision, if_pos hnf]

/-- Concrete exponent for the spec case `resolve(0.23)`. -/
theorem first_digit_023 : first_digit (0.23 : ℚ) = -1 :=
  first_digit_eq_of_div_bounds (by norm_num)
    (by rw [zpow_neg, zpow_one]; norm_num) (by rw [zpow_neg, zpow_one]; norm_num)

/-- Concrete exponent for the spec case `resolve(0.15)`. -/
theorem first_digit_015 : first_digit (0.15 : ℚ) = -1 :=
  first_digit_eq_of_div_bounds (by norm_num)
    (by rw [zpow_neg, zpow_one]; norm_num) (by rw [zpow_neg, zpow_one]; norm_num)

/-- Concrete evaluation: `resolve(0.23) = (1, 0.3)`. -/
theorem PDG_precision_023 : PDG_precision (0.23 : ℚ) = (1, 0.3) := by
  have hc : (⌈(0.23 : ℚ) * (10 : ℚ) ^ (1 : ℤ)⌉ : ℤ) = 3 := by
    rw [Int.ceil_eq_iff]
    rw [zpow_one]
    norm_num
  simp only [PDG_precision, first_digit_023, neg_neg]
  rw [if_neg (by rw [zpow_one]; norm_num)]
  rw [hc]
  norm_num

/-- Concrete evaluation: `resolve(0.15) = (2, 0.15)`. -/
theorem PDG_precision_015 : PDG_precision (0.15 : ℚ) = (2, 0.15) := by
  have hc : (⌈(0.15 : ℚ) * (10 : ℚ) ^ (1 : ℤ) * 10⌉ : ℤ) = 15 := by
    rw [Int.ceil_eq_iff]
    rw [zpow_one]
    norm_num
  simp only [PDG_precision, first_digit_015, neg_neg]
  rw [if_pos (by rw [zpow_one]; norm_num)]
  rw [hc]
  norm_num

/-! ### Claim theorems: significant-digit resolver -/

/-- C1: For every std_dev > 0, the pair returned by the significant-digit
resolver `_PDG_precision` has its rounded standard deviation component
greater than or equal to std_dev — rounding never understates the input
uncertainty. -/
theorem claim_C1 (std_dev : ℚ) (_h : 0 < std_dev) :
    std_dev ≤ (PDG_precision std_dev).2 :=
  PDG_precision_snd_ge std_dev

/-- Witness for C1 at the concrete input 0.23. -/
theorem claim_C1_witness :
    (0 : ℚ) < 0.23 ∧ (0.23 : ℚ) ≤ (PDG_precision 0.23).2 :=
  ⟨by norm_num, claim_C1 0.23 (by norm_num)⟩

/-- C2: For std_dev > 0 with the exponent e such that
normalized = std_dev / 10^e lies in [1, 10), the resolver returns
(2, ⌈normalized * 10⌉ * 10^(e-1)) when normalized ≤ 1.9 and
(1, ⌈normalized⌉ * 10^e) when normalized > 1.9; in particular the digit
count is always 1 or 2. -/
theorem claim_C2 (std_dev : ℚ) (e : ℤ) (h : 0 < std_dev)
    (h1 : 1 ≤ std_dev / (10 : ℚ) ^ e) (h2 : std_dev / (10 : ℚ) ^ e < 10) :
    (std_dev / (10 : ℚ) ^ e ≤ 1.9 →
        PDG_precision std_dev =
          (2, ((⌈std_dev / (10 : ℚ) ^ e * 10⌉ : ℤ) : ℚ) * (10 : ℚ) ^ (e - 1))) ∧
      (1.9 < std_dev / (10 : ℚ) ^ e →
        PDG_precision std_dev =
          (1, ((⌈std_dev / (10 : ℚ) ^ e⌉ : ℤ) : ℚ) * (10 : ℚ) ^ e)) ∧
      ((PDG_precision std_dev).1 = 1 ∨ (PDG_precision std_dev).1 = 2) := by
  refine ⟨?_, ?_, ?_⟩
  · intro hle
    rw [PDG_precision_eq_of_bounds h h1 h2, if_pos hle]
  · intro hgt
    rw [PDG_precision_eq_of_bounds h h1 h2, if_neg (not_le.mpr hgt)]
  · by_cases hc : std_dev * (10 : ℚ) ^ (-(first_digit std_dev)) ≤ 1.9
    · exact Or.inr (by simp only [PDG_precision, if_pos hc])
    · exact Or.inl (by simp only [PDG_precision, if_neg hc])

/-- Witness for C2 at std_dev = 0.23 with exponent -1. -/
theorem claim_C2_witness :
    1.9 < (0.23 : ℚ) / (10 : ℚ) ^ (-1 : ℤ) ∧
      PDG_precision (0.23 : ℚ) =
        (1, ((⌈(0.23 : ℚ) / (10 : ℚ) ^ (-1 : ℤ)⌉ : ℤ) : ℚ) * (10 : ℚ) ^ (-1 : ℤ)) := by
  have h := (claim_C2 0.23 (-1) (by norm_num)
    (by rw [zpow_neg, zpow_one]; norm_num) (by rw [zpow_neg, zpow_one]; norm_num)).2.1
  have hgt : (1.9 : ℚ) < (0.23 : ℚ) / (10 : ℚ) ^ (-1 : ℤ) := by
    rw [zpow_neg, zpow_one]
    norm_num
  exact ⟨hgt, h hgt⟩

/-- C3 counterexample: at std_dev = 0 the resolver does not fail with a
domain error; the zero fallback of `first_digit` yields exponent 0 and
the resolver returns the result (2, 0). -/
theorem claim_C3_counterexample : PDG_precision 0 = (2, 0) := by
  have h0 : first_digit 0 = 0 := by simp [first_digit]
  simp only [PDG_precision, h0, neg_zero, zpow_zero, mul_one, zero_mul]
  rw [if_pos (by norm_num)]
  norm_num

/-- C3 amended: for std_dev ≤ 0 the resolver does not fail and returns
no error — `first_digit` swallows the only possible domain error — and
the returned digit count is 2 (the nonpositive normalized value falls
into the two-digit branch). -/
theorem claim_C3_amended (std_dev : ℚ) (h : std_dev ≤ 0) :
    (PDG_precision std_dev).1 = 2 :=
  PDG_precision_fst_of_nonpos h

/-- Witness for the amended C3 at std_dev = -0.23. -/
theorem claim_C3_witness :
    (-0.23 : ℚ) ≤ 0 ∧ (PDG_precision (-0.23 : ℚ)).1 = 2 :=
  ⟨by norm_num, claim_C3_amended _ (by norm_num)⟩

/-- C8: the concrete spec cases: resolve(0.23) has exponent -1,
normalized 2.3 > 1.9 and returns (1, 0.3); resolve(0.15) has exponent
-1, normalized 1.5 ≤ 1.9 and returns (2, 0.15). -/
theorem claim_C8 :
    (first_digit (0.23 : ℚ) = -1 ∧
      (0.23 : ℚ) * (10 : ℚ) ^ (-(first_digit (0.23 : ℚ))) = 2.3 ∧
      (1.9 : ℚ) < 2.3 ∧ PDG_precision (0.23 : ℚ) = (1, 0.3)) ∧
    (first_digit (0.15 : ℚ) = -1 ∧
      (0.15 : ℚ) * (10 : ℚ) ^ (-(first_digit (0.15 : ℚ))) = 1.5 ∧
      (1.5 : ℚ) ≤ 1.9 ∧ PDG_precision (0.15 : ℚ) = (2, 0.15)) := by
  refine ⟨⟨first_digit_023, ?_, by norm_num, PDG_precision_023⟩,
    first_digit_015, ?_, by norm_num, PDG_precision_015⟩
  · rw [first_digit_023]
    norm_num
  · rw [first_digit_015]
    norm_num

/-! ### Helper lemmas: the step-2 scanner -/

theorem pmSubA_nil (sym : List Char) (n : ℕ) : pmSubA sym n [] = [] := by
  cases n <;> rfl

theorem pmSubA_succ (sym : List Char) (n : ℕ) (c : Char) (t : List Char) :
    pmSubA sym (n + 1) (c :: t) = pmSubA sym n t := rfl

theorem pmSubA_zero (sym : List Char) (c : Char) (t : List Char) :
    pmSubA sym 0 (c :: t) =
      if pmHead5 (c :: t) then
        c :: ' ' :: (sym ++ ' ' :: t.getD 3 ' ' :: pmSubA sym 4 t)
      else c :: pmSubA sym 0 t := rfl

theorem hasPM_cons (c : Char) (t : List Char) :
    hasPM (c :: t) = (pmHead5 (c :: t) || hasPM t) := rfl

/-- Without any occurrence of the step-2 pattern, the scanner copies the
string unchanged. -/
theorem pmSubA_of_hasPM_false (sym : List Char) :
    ∀ l : List Char, hasPM l = false → pmSubA sym 0 l = l := by
  intro l
  induction l with
  | nil => intro _; rfl
  | cons c t ih =>
      intro h
      rw [hasPM_cons, Bool.or_eq_false_iff] at h
      rw [pmSubA_zero, if_neg (by simp [h.1])]
      rw [ih h.2]

/-- A character of the pattern interior cannot be a digit, so a window
that would need the first captured digit at a plus, slash or minus
position never matches. -/
theorem beq_eq_false_of_isDigit {d c : Char} (hd : d.isDigit = true)
    (hc : c.isDigit = false) : (d == c) = false := by
  cases hbe : d == c with
  | false => rfl
  | true =>
      rw [beq_iff_eq] at hbe
      rw [hbe, hc] at hd
      cases hd

/-- The five-character window test only inspects the first five
characters. -/
theorem pmHead5_five (a b c d e : Char) (w : List Char) :
    pmHead5 (a :: b :: c :: d :: e :: w) =
      (a.isDigit && (b == '+') && (c == '/') && (d == '-') && e.isDigit) := rfl

/-- Extending the list beyond a digit `d1` cannot create a match of the
window test that was absent with the list cut directly after `d1`. -/
theorem pmHead5_append_window (c : Char) (u : List Char) {d1 : Char}
    (d2 : Char) (v : List Char) (h1 : d1.isDigit = true)
    (h : pmHead5 (c :: (u ++ [d1])) = false) :
    pmHead5 (c :: (u ++ d1 :: '+' :: '/' :: '-' :: d2 :: v)) = false := by
  match u with
  | [] =>
      have hne : (d1 == '+') = false := beq_eq_false_of_isDigit h1 (by decide)
      simp only [List.nil_append, pmHead5_five, hne]
      simp
  | [a] =>
      have hne : (d1 == '/') = false := beq_eq_false_of_isDigit h1 (by decide)
      simp only [List.cons_append, List.nil_append, pmHead5_five, hne]
      simp
  | [a, b] =>
      simp only [List.cons_append, List.nil_append, pmHead5_five]
      simp [show ('+').isDigit = false from rfl]
  | a :: b :: c2 :: u' =>
      match u' with
      | [] => exact h
      | x :: u'' => exact h

/-- The leftmost occurrence of the step-2 pattern is rewritten to the
two digits separated by the symbol with one space on each side, and the
scan resumes after the occurrence. -/
theorem pmSubA_first (sym : List Char) :
    ∀ (u : List Char) {d1 d2 : Char} (v : List Char),
      d1.isDigit = true → d2.isDigit = true → hasPM (u ++ [d1]) = false →
      pmSubA sym 0 (u ++ d1 :: '+' :: '/' :: '-' :: d2 :: v) =
        u ++ d1 :: ' ' :: (sym ++ ' ' :: d2 :: pmSubA sym 0 v) := by
  intro u
  induction u with
  | nil =>
      intro d1 d2 v h1 h2 _
      rw [List.nil_append, List.nil_append, pmSubA_zero,
        if_pos (by simp [pmHead5_five, h1, h2])]
      rfl
  | cons c u' ih =>
      intro d1 d2 v h1 h2 hu
      rw [List.cons_append, hasPM_cons, Bool.or_eq_false_iff] at hu
      have hw : pmHead5 (c :: (u' ++ d1 :: '+' :: '/' :: '-' :: d2 :: v)) = false :=
        pmHead5_append_window c u' d2 v h1 hu.1
      rw [List.cons_append, pmSubA_zero, if_neg (by simp [hw])]
      rw [ih v h1 h2 hu.2]
      rfl

/-! ### Helper lemmas: the step-3 matcher -/

theorem mrun_nil (sym : List Char) (st : MSt) : mrun sym st [] = none := by
  cases st with
  | lit p => cases p <;> rfl
  | a0 => rfl
  | a1 => rfl
  | a2 => rfl
  | b1 => rfl
  | b2 => rfl
  | ex => rfl

theorem mrun_a1_space (sym l : List Char) :
    mrun sym MSt.a1 (' ' :: l) = addC ' ' (mrun sym (MSt.lit (sym ++ [' '])) l) := rfl

theorem mrun_a2_space (sym l : List Char) :
    mrun sym MSt.a2 (' ' :: l) = addC ' ' (mrun sym (MSt.lit (sym ++ [' '])) l) := rfl

theorem mrun_a1_dot (sym l : List Char) :
    mrun sym MSt.a1 ('.' :: l) = addC '.' (mrun sym MSt.a2 l) := rfl

theorem mrun_b1_dot (sym l : List Char) :
    mrun sym MSt.b1 ('.' :: l) = addC '.' (mrun sym MSt.b2 l) := rfl

theorem mrun_b1_close (sym l : List Char) :
    mrun sym MSt.b1 (')' :: l) = addC ' ' (mrun sym MSt.ex l) := rfl

theorem mrun_b2_close (sym l : List Char) :
    mrun sym MSt.b2 (')' :: l) = addC ' ' (mrun sym MSt.ex l) := rfl

theorem mrun_ex_e (sym l : List Char) :
    mrun sym MSt.ex ('e' :: l) = some (['e'], 1) := rfl

theorem mrun_a0_digit (sym l : List Char) {d : Char} (hd : d.isDigit = true) :
    mrun sym MSt.a0 (d :: l) = addC d (mrun sym MSt.a1 l) := by
  simp only [mrun, hd, if_true]

theorem mrun_litnil_digit (sym l : List Char) {d : Char} (hd : d.isDigit = true) :
    mrun sym (MSt.lit []) (d :: l) = addC d (mrun sym MSt.b1 l) := by
  simp only [mrun, hd, if_true]

/-- In the four digit-reading states, a run of digits is consumed while
staying in the same state. -/
theorem mrun_digits (sym : List Char) {st : MSt}
    (hst : st = MSt.a1 ∨ st = MSt.a2 ∨ st = MSt.b1 ∨ st = MSt.b2) :
    ∀ (D : List Char), (∀ c ∈ D, c.isDigit = true) → ∀ l,
      mrun sym st (D ++ l) =
        (mrun sym st l).map (fun p => (D ++ p.1, D.length + p.2)) := by
  intro D
  induction D with
  | nil =>
      intro _ l
      cases hm : mrun sym st l <;> simp [hm]
  | cons d D' ih =>
      intro hD l
      have hd : d.isDigit = true := hD d (List.mem_cons_self d D')
      have hD' : ∀ c ∈ D', c.isDigit = true := fun c hc => hD c (List.mem_cons_of_mem d hc)
      have hstep : mrun sym st (d :: (D' ++ l)) = addC d (mrun sym st (D' ++ l)) := by
        rcases hst with h | h | h | h <;> subst h <;> simp only [mrun, hd, if_true]
      rw [List.cons_append, hstep, ih hD' l]
      cases hm : mrun sym st l <;> simp [addC] <;> omega

/-- The `lit` state consumes exactly its pending literal characters. -/
theorem mrun_lit (sym : List Char) :
    ∀ (x l : List Char),
      mrun sym (MSt.lit x) (x ++ l) =
        (mrun sym (MSt.lit []) l).map (fun p => (x ++ p.1, x.length + p.2)) := by
  intro x
  induction x with
  | nil =>
      intro l
      cases hm : mrun sym (MSt.lit []) l <;> simp [hm]
  | cons p ps ih =>
      intro l
      rw [List.cons_append]
      have hstep : mrun sym (MSt.lit (p :: ps)) (p :: (ps ++ l)) =
          addC p (mrun sym (MSt.lit ps) (ps ++ l)) := by
        simp [mrun]
      rw [hstep, ih l]
      cases hm : mrun sym (MSt.lit []) l <;> simp [addC] <;> omega

/-- From the initial state, a full group match `\d+\.?\d*` followed by a
space is consumed, handing over to the literal state. -/
theorem mrun_a0_numlit (sym : List Char) {A : List Char} (hA : NumLit A)
    (l : List Char) :
    mrun sym MSt.a0 (A ++ ' ' :: l) =
      (mrun sym (MSt.lit (sym ++ [' '])) l).map
        (fun p => (A ++ ' ' :: p.1, A.length + 1 + p.2)) := by
  obtain ⟨D1, D2, rfl, hne, hD1, hD2⟩ := hA
  match D1, hne with
  | d :: D1', _ =>
    have hd : d.isDigit = true := hD1 d (List.mem_cons_self d D1')
    have hD1' : ∀ c ∈ D1', c.isDigit = true :=
      fun c hc => hD1 c (List.mem_cons_of_mem d hc)
    rcases hD2 with rfl | ⟨D3, rfl, hD3⟩
    · simp only [List.append_nil, List.cons_append]
      rw [mrun_a0_digit sym _ hd,
        mrun_digits sym (Or.inl rfl) D1' hD1' (' ' :: l), mrun_a1_space]
      cases hm : mrun sym (MSt.lit (sym ++ [' '])) l <;> simp [addC] <;> omega
    · simp only [List.cons_append, List.append_assoc]
      rw [mrun_a0_digit sym _ hd,
        mrun_digits sym (Or.inl rfl) D1' hD1' ('.' :: (D3 ++ ' ' :: l)),
        mrun_a1_dot,
        mrun_digits sym (Or.inr (Or.inl rfl)) D3 hD3 (' ' :: l), mrun_a2_space]
      cases hm : mrun sym (MSt.lit (sym ++ [' '])) l <;>
        simp [addC, List.length_append] <;> omega

/-- After the literal, a full group match `\d+\.?\d*` followed by the
closing parenthesis and `e` completes the match. -/
theorem mrun_litnil_numlit (sym : List Char) {B : List Char} (hB : NumLit B)
    (l : List Char) :
    mrun sym (MSt.lit []) (B ++ ')' :: 'e' :: l) =
      some (B ++ [' ', 'e'], B.length + 2) := by
  obtain ⟨D1, D2, rfl, hne, hD1, hD2⟩ := hB
  match D1, hne with
  | d :: D1', _ =>
    have hd : d.isDigit = true := hD1 d (List.mem_cons_self d D1')
    have hD1' : ∀ c ∈ D1', c.isDigit = true :=
      fun c hc => hD1 c (List.mem_cons_of_mem d hc)
    rcases hD2 with rfl | ⟨D3, rfl, hD3⟩
    · simp only [List.append_nil, List.cons_append]
      rw [mrun_litnil_digit sym _ hd,
        mrun_digits sym (Or.inr (Or.inr (Or.inl rfl))) D1' hD1' (')' :: 'e' :: l),
        mrun_b1_close, mrun_ex_e]
      simp [addC]
    · simp only [List.cons_append, List.append_assoc]
      rw [mrun_litnil_digit sym _ hd,
        mrun_digits sym (Or.inr (Or.inr (Or.inl rfl))) D1' hD1'
          ('.' :: (D3 ++ ')' :: 'e' :: l)),
        mrun_b1_dot,
        mrun_digits sym (Or.inr (Or.inr (Or.inr rfl))) D3 hD3 (')' :: 'e' :: l),
        mrun_b2_close, mrun_ex_e]
      simp [addC, List.length_append]
      omega

/-- The matcher accepts exactly the pattern tail
`A SP SYM SP B close-paren e` and produces the replacement
`A SP SYM SP B SP e` together with the consumed length. -/
theorem mrun_full (sym : List Char) {A B : List Char} (hA : NumLit A)
    (hB : NumLit B) (t : List Char) :
    mrun sym MSt.a0 (A ++ ' ' :: (sym ++ ' ' :: (B ++ ')' :: 'e' :: t))) =
      some (A ++ ' ' :: (sym ++ ' ' :: (B ++ [' ', 'e'])),
        (A ++ ' ' :: (sym ++ ' ' :: (B ++ [')', 'e']))).length) := by
  have hx : sym ++ ' ' :: (B ++ ')' :: 'e' :: t) =
      (sym ++ [' ']) ++ (B ++ ')' :: 'e' :: t) := by simp
  rw [mrun_a0_numlit sym hA, hx, mrun_lit sym (sym ++ [' ']),
    mrun_litnil_numlit sym hB t]
  simp [List.length_append]
  omega

/-! ### Helper lemmas: the step-3 scanner -/

theorem sub3A_nil (sym : List Char) (n : ℕ) : sub3A sym n [] = [] := by
  cases n <;> rfl

theorem sub3A_succ (sym : List Char) (n : ℕ) (c : Char) (t : List Char) :
    sub3A sym (n + 1) (c :: t) = sub3A sym n t := rfl

theorem sub3A_cons_ne (sym : List Char) {c : Char} (h : c ≠ '(') (t : List Char) :
    sub3A sym 0 (c :: t) = c :: sub3A sym 0 t := by
  rw [show sub3A sym 0 (c :: t) =
      (if c = '(' then
        (match mrun sym MSt.a0 t with
         | some (cs, k) => cs ++ sub3A sym k t
         | none => '(' :: sub3A sym 0 t)
      else c :: sub3A sym 0 t) from rfl, if_neg h]

theorem sub3A_paren_some (sym : List Char) {t cs : List Char} {k : ℕ}
    (h : mrun sym MSt.a0 t = some (cs, k)) :
    sub3A sym 0 ('(' :: t) = cs ++ sub3A sym k t := by
  rw [show sub3A sym 0 ('(' :: t) =
      (match mrun sym MSt.a0 t with
       | some (cs, k) => cs ++ sub3A sym k t
       | none => '(' :: sub3A sym 0 t) from rfl, h]

theorem sub3A_paren_none (sym : List Char) {t : List Char}
    (h : mrun sym MSt.a0 t = none) :
    sub3A sym 0 ('(' :: t) = '(' :: sub3A sym 0 t := by
  rw [show sub3A sym 0 ('(' :: t) =
      (match mrun sym MSt.a0 t with
       | some (cs, k) => cs ++ sub3A sym k t
       | none => '(' :: sub3A sym 0 t) from rfl, h]

/-- A skip count equal to the length of a prefix passes over exactly
that prefix. -/
theorem sub3A_skip (sym : List Char) :
    ∀ (x t : List Char), sub3A sym x.length (x ++ t) = sub3A sym 0 t := by
  intro x
  induction x with
  | nil => intro t; rfl
  | cons c x' ih =>
      intro t
      rw [List.cons_append, List.length_cons, sub3A_succ, ih t]

/-- The scanner copies any prefix free of opening parentheses. -/
theorem sub3A_append_ne (sym : List Char) :
    ∀ {u : List Char}, (∀ c ∈ u, c ≠ '(') → ∀ t,
      sub3A sym 0 (u ++ t) = u ++ sub3A sym 0 t := by
  intro u
  induction u with
  | nil => intro _ t; rfl
  | cons c u' ih =>
      intro hu t
      rw [List.cons_append,
        sub3A_cons_ne sym (hu c (List.mem_cons_self c u')) (u' ++ t),
        ih (fun x hx => hu x (List.mem_cons_of_mem c hx)) t, List.cons_append]

theorem has3_cons (sym : List Char) (c : Char) (t : List Char) :
    has3 sym (c :: t) = (((c == '(') && (mrun sym MSt.a0 t).isSome) || has3 sym t) := rfl

/-- Without any position where the step-3 pattern matches, the scanner
copies the string unchanged. -/
theorem sub3A_of_has3_false (sym : List Char) :
    ∀ l : List Char, has3 sym l = false → sub3A sym 0 l = l := by
  intro l
  induction l with
  | nil => intro _; rfl
  | cons c t ih =>
      intro h
      rw [has3_cons, Bool.or_eq_false_iff] at h
      by_cases hc : c = '('
      · subst hc
        cases hm0 : mrun sym MSt.a0 t with
        | none => rw [sub3A_paren_none sym hm0, ih h.2]
        | some p =>
            exfalso
            have h1 := h.1
            rw [hm0] at h1
            simp at h1
      · rw [sub3A_cons_ne sym hc t, ih h.2]

/-- The leftmost step-3 match is replaced: the parentheses are dropped,
a space is inserted before the exponent marker, and the scan resumes
after the consumed text. -/
theorem sub3A_match (sym : List Char) {A B : List Char} (hA : NumLit A)
    (hB : NumLit B) {u : List Char} (hu : ∀ c ∈ u, c ≠ '(') (t : List Char) :
    sub3A sym 0 (u ++ '(' :: (A ++ ' ' :: (sym ++ ' ' :: (B ++ ')' :: 'e' :: t)))) =
      u ++ (A ++ ' ' :: (sym ++ ' ' :: (B ++ ' ' :: 'e' :: sub3A sym 0 t))) := by
  rw [sub3A_append_ne sym hu, sub3A_paren_some sym (mrun_full sym hA hB t)]
  have hsk : sub3A sym ((A ++ ' ' :: (sym ++ ' ' :: (B ++ [')', 'e']))).length)
      (A ++ ' ' :: (sym ++ ' ' :: (B ++ ')' :: 'e' :: t))) = sub3A sym 0 t := by
    have hx : A ++ ' ' :: (sym ++ ' ' :: (B ++ ')' :: 'e' :: t)) =
        (A ++ ' ' :: (sym ++ ' ' :: (B ++ [')', 'e']))) ++ t := by simp
    rw [hx, sub3A_skip]
  rw [hsk]
  simp

/-! ### Helper lemmas: characters produced by the post-processing -/

theorem addC_eq_some {x : Char} {o : Option (List Char × ℕ)} {cs : List Char}
    {k : ℕ} (h : addC x o = some (cs, k)) :
    ∃ cs' k', o = some (cs', k') ∧ cs = x :: cs' ∧ k = k' + 1 := by
  cases o with
  | none => cases h
  | some p =>
      obtain ⟨cs', k'⟩ := p
      have h2 : (some (x :: cs', k' + 1) : Option (List Char × ℕ)) = some (cs, k) := h
      injection h2 with h3
      injection h3 with h4 h5
      exact ⟨cs', k', rfl, h4.symm, h5.symm⟩

theorem addC_none_iff {x : Char} {o : Option (List Char × ℕ)} :
    addC x o = none ↔ o = none := by
  cases o with
  | none => simp [addC]
  | some p => obtain ⟨cs, k⟩ := p; simp [addC]

theorem getD_mem_or_eq (t : List Char) (n : ℕ) (d : Char) :
    t.getD n d ∈ t ∨ t.getD n d = d := by
  rcases Nat.lt_or_ge n t.length with hn | hn
  · left
    rw [List.getD_eq_getElem t d hn]
    exact List.getElem_mem hn
  · right
    exact List.getD_eq_default t d hn

/-- Every character emitted by the step-2 scanner comes from the input,
from the symbol, or is one of the inserted spaces. -/
theorem pmSubA_mem (sym : List Char) :
    ∀ (l : List Char) (n : ℕ) {c : Char},
      c ∈ pmSubA sym n l → c ∈ l ∨ c ∈ sym ∨ c = ' ' := by
  intro l
  induction l with
  | nil =>
      intro n c hc
      rw [pmSubA_nil] at hc
      cases hc
  | cons a t ih =>
      intro n c hc
      cases n with
      | succ m =>
          rw [pmSubA_succ] at hc
          rcases ih m hc with h | h
          · exact Or.inl (List.mem_cons_of_mem a h)
          · exact Or.inr h
      | zero =>
          rw [pmSubA_zero] at hc
          by_cases hh : pmHead5 (a :: t) = true
          · rw [if_pos hh] at hc
            rcases List.mem_cons.mp hc with rfl | hc1
            · exact Or.inl (List.mem_cons_self _ _)
            rcases List.mem_cons.mp hc1 with rfl | hc2
            · exact Or.inr (Or.inr rfl)
            rcases List.mem_append.mp hc2 with hc3 | hc3
            · exact Or.inr (Or.inl hc3)
            rcases List.mem_cons.mp hc3 with rfl | hc4
            · exact Or.inr (Or.inr rfl)
            rcases List.mem_cons.mp hc4 with rfl | hc5
            · rcases getD_mem_or_eq t 3 ' ' with hg | hg
              · exact Or.inl (List.mem_cons_of_mem a hg)
              · exact Or.inr (Or.inr hg)
            · rcases ih 4 hc5 with h | h
              · exact Or.inl (List.mem_cons_of_mem a h)
              · exact Or.inr h
          · rw [if_neg hh] at hc
            rcases List.mem_cons.mp hc with rfl | hc1
            · exact Or.inl (List.mem_cons_self _ _)
            · rcases ih 0 hc1 with h | h
              · exact Or.inl (List.mem_cons_of_mem a h)
              · exact Or.inr h

/-- Every character emitted by the step-3 matcher comes from the input
or is the space replacing the closing parenthesis. -/
theorem mrun_mem (sym : List Char) :
    ∀ (l : List Char) (st : MSt) {cs : List Char} {k : ℕ},
      mrun sym st l = some (cs, k) → ∀ {c : Char}, c ∈ cs → c ∈ l ∨ c = ' ' := by
  intro l
  induction l with
  | nil =>
      intro st cs k h
      rw [mrun_nil] at h
      cases h
  | cons a t ih =>
      intro st cs k h c hc
      have step :
          ∀ (x : Char) (st' : MSt), (x = a ∨ x = ' ') →
            addC x (mrun sym st' t) = some (cs, k) → c ∈ a :: t ∨ c = ' ' := by
        intro x st' hx haddc
        obtain ⟨cs', k', hm, rfl, -⟩ := addC_eq_some haddc
        rcases List.mem_cons.mp hc with rfl | hc'
        · rcases hx with rfl | rfl
          · exact Or.inl (List.mem_cons_self _ _)
          · exact Or.inr rfl
        · rcases ih st' hm hc' with h1 | h1
          · exact Or.inl (List.mem_cons_of_mem a h1)
          · exact Or.inr h1
      cases st with
      | a0 =>
          rw [show mrun sym MSt.a0 (a :: t) =
              (if a.isDigit = true then addC a (mrun sym MSt.a1 t) else none)
            from rfl] at h
          split_ifs at h
          exact step a MSt.a1 (Or.inl rfl) h
      | a1 =>
          rw [show mrun sym MSt.a1 (a :: t) =
              (if a.isDigit = true then addC a (mrun sym MSt.a1 t)
               else if a = '.' then addC a (mrun sym MSt.a2 t)
               else if a = ' ' then addC a (mrun sym (MSt.lit (sym ++ [' '])) t)
               else none) from rfl] at h
          split_ifs at h
          · exact step a MSt.a1 (Or.inl rfl) h
          · exact step a MSt.a2 (Or.inl rfl) h
          · exact step a (MSt.lit (sym ++ [' '])) (Or.inl rfl) h
      | a2 =>
          rw [show mrun sym MSt.a2 (a :: t) =
              (if a.isDigit = true then addC a (mrun sym MSt.a2 t)
               else if a = ' ' then addC a (mrun sym (MSt.lit (sym ++ [' '])) t)
               else none) from rfl] at h
          split_ifs at h
          · exact step a MSt.a2 (Or.inl rfl) h
          · exact step a (MSt.lit (sym ++ [' '])) (Or.inl rfl) h
      | lit pend =>
          cases pend with
          | nil =>
              rw [show mrun sym (MSt.lit []) (a :: t) =
                  (if a.isDigit = true then addC a (mrun sym MSt.b1 t) else none)
                from rfl] at h
              split_ifs at h
              exact step a MSt.b1 (Or.inl rfl) h
          | cons p ps =>
              rw [show mrun sym (MSt.lit (p :: ps)) (a :: t) =
                  (if a = p then addC a (mrun sym (MSt.lit ps) t) else none)
                from rfl] at h
              split_ifs at h
              exact step a (MSt.lit ps) (Or.inl rfl) h
      | b1 =>
          rw [show mrun sym MSt.b1 (a :: t) =
              (if a.isDigit = true then addC a (mrun sym MSt.b1 t)
               else if a = '.' then addC a (mrun sym MSt.b2 t)
               else if a = ')' then addC ' ' (mrun sym MSt.ex t)
               else none) from rfl] at h
          split_ifs at h
          · exact step a MSt.b1 (Or.inl rfl) h
          · exact step a MSt.b2 (Or.inl rfl) h
          · exact step ' ' MSt.ex (Or.inr rfl) h
      | b2 =>
          rw [show mrun sym MSt.b2 (a :: t) =
              (if a.isDigit = true then addC a (mrun sym MSt.b2 t)
               else if a = ')' then addC ' ' (mrun sym MSt.ex t)
               else none) from rfl] at h
          split_ifs at h
          · exact step a MSt.b2 (Or.inl rfl) h
          · exact step ' ' MSt.ex (Or.inr rfl) h
      | ex =>
          rw [show mrun sym MSt.ex (a :: t) =
              (if a = 'e' then some (['e'], 1) else none) from rfl] at h
          split_ifs at h with he
          injection h with h1
          injection h1 with h2 h3
          rw [← h2] at hc
          rcases List.mem_cons.mp hc with rfl | hc'
          · exact Or.inl (he ▸ List.mem_cons_self _ _)
          · cases hc'

/-- Every character emitted by the step-3 scanner comes from the input
or is an inserted space. -/
theorem sub3A_mem (sym : List Char) :
    ∀ (l : List Char) (n : ℕ) {c : Char},
      c ∈ sub3A sym n l → c ∈ l ∨ c = ' ' := by
  intro l
  induction l with
  | nil =>
      intro n c hc
      rw [sub3A_nil] at hc
      cases hc
  | cons a t ih =>
      intro n c hc
      cases n with
      | succ m =>
          rw [sub3A_succ] at hc
          rcases ih m hc with h | h
          · exact Or.inl (List.mem_cons_of_mem a h)
          · exact Or.inr h
      | zero =>
          by_cases ha : a = '('
          · subst ha
            cases hm : mrun sym MSt.a0 t with
            | none =>
                rw [sub3A_paren_none sym hm] at hc
                rcases List.mem_cons.mp hc with rfl | hc'
                · exact Or.inl (List.mem_cons_self _ _)
                · rcases ih 0 hc' with h | h
                  · exact Or.inl (List.mem_cons_of_mem _ h)
                  · exact Or.inr h
            | some p =>
                obtain ⟨cs, k⟩ := p
                rw [sub3A_paren_some sym hm] at hc
                rcases List.mem_append.mp hc with hc' | hc'
                · rcases mrun_mem sym t MSt.a0 hm hc' with h | h
                  · exact Or.inl (List.mem_cons_of_mem _ h)
                  · exact Or.inr h
                · rcases ih k hc' with h | h
                  · exact Or.inl (List.mem_cons_of_mem _ h)
                  · exact Or.inr h
          · rw [sub3A_cons_ne sym ha t] at hc
            rcases List.mem_cons.mp hc with rfl | hc'
            · exact Or.inl (List.mem_cons_self _ _)
            · rcases ih 0 hc' with h | h
              · exact Or.inl (List.mem_cons_of_mem a h)
              · exact Or.inr h

theorem stripQ_not_mem (l : List Char) : '"' ∉ stripQ l := by
  intro h
  rw [stripQ, List.mem_filter] at h
  simp at h

theorem stripQ_eq_self {l : List Char} (h : '"' ∉ l) : stripQ l = l := by
  rw [stripQ]
  apply List.filter_eq_self.mpr
  intro c hc
  have : c ≠ '"' := fun he => h (he ▸ hc)
  simp [this]

/-- The full post-processing never emits a double quote (for a symbol
free of double quotes). -/
theorem uarrayPost_quote_not_mem (sym l : List Char) (hsym : '"' ∉ sym) :
    '"' ∉ uarrayPost sym l := by
  intro h
  rw [uarrayPost, sub3, pmSub] at h
  rcases sub3A_mem sym _ 0 h with h1 | h1
  · rcases pmSubA_mem sym _ 0 h1 with h2 | h2 | h2
    · exact stripQ_not_mem l h2
    · exact hsym h2
    · cases h2
  · cases h1

/-! ### Claim theorems: uarray post-processing -/

/-- C5: a digit immediately followed by plus, slash, minus and a digit
is rewritten (at its leftmost, non-overlapped occurrence) to the two
digits separated by the plus-minus symbol with exactly one space on each
side; the symbol is the backslash-p-m literal in write_table.py and the
plus-minus literal in functions.py, and the two variants agree up to
that symbol substitution. -/
theorem claim_C5 (u : List Char) {d1 d2 : Char} (v : List Char)
    (h1 : d1.isDigit = true) (h2 : d2.isDigit = true)
    (hu : hasPM (u ++ [d1]) = false) :
    pmSub bsPm (u ++ d1 :: '+' :: '/' :: '-' :: d2 :: v) =
        u ++ d1 :: ' ' :: ('\\' :: 'p' :: 'm' :: ' ' :: d2 :: pmSub bsPm v) ∧
      pmSub pmTxt (u ++ d1 :: '+' :: '/' :: '-' :: d2 :: v) =
        u ++ d1 :: ' ' :: ('+' :: '-' :: ' ' :: d2 :: pmSub pmTxt v) :=
  ⟨pmSubA_first bsPm u v h1 h2 hu, pmSubA_first pmTxt u v h1 h2 hu⟩

/-- Witness for C5 at the spec example 3.14 plus-slash-minus 0.07. -/
theorem claim_C5_witness :
    pmSub bsPm (("3.1").data ++ '4' :: '+' :: '/' :: '-' :: '0' :: (".07").data) =
        ("3.1").data ++ '4' :: ' ' ::
          ('\\' :: 'p' :: 'm' :: ' ' :: '0' :: pmSub bsPm (".07").data) ∧
      pmSub pmTxt (("3.1").data ++ '4' :: '+' :: '/' :: '-' :: '0' :: (".07").data) =
        ("3.1").data ++ '4' :: ' ' ::
          ('+' :: '-' :: ' ' :: '0' :: pmSub pmTxt (".07").data) :=
  claim_C5 ("3.1").data (".07").data (by decide) (by decide) (by decide)

/-- C4 counterexample: with a leading sign on the first number the
step-3 pattern does not match (it requires a digit directly after the
opening parenthesis), so the parentheses are kept, contradicting the
claim that they are dropped for a signed first component. -/
theorem claim_C4_counterexample :
    formatLatex (("\"(-1.23+/-0.04)e+02\"").data) = ("(-1.23 \\pm 0.04)e+02").data ∧
      formatLatex (("\"(-1.23+/-0.04)e+02\"").data) ≠ ("-1.23 \\pm 0.04 e+02").data := by
  decide

/-- C4 amended: for a cell carrying an exponent suffix of the shape
open-paren A SYM B close-paren e, where A and B are unsigned decimal
literals (digits with an optional decimal point), the post-processing
drops the parentheses and re-emits A SYM B e space-separated, leaving
the exponent suffix untouched; this holds for both symbol variants, and
on the concrete spec example the full pipeline yields the expected
output.  (A signed A does not match and passes through unchanged, per
the counterexample.) -/
theorem claim_C4 {A B : List Char} (hA : NumLit A) (hB : NumLit B)
    {u : List Char} (hu : ∀ c ∈ u, c ≠ '(') (t : List Char) :
    (sub3 bsPm
        (u ++ '(' :: (A ++ ' ' :: ('\\' :: 'p' :: 'm' :: ' ' :: (B ++ ')' :: 'e' :: t)))) =
        u ++ (A ++ ' ' :: ('\\' :: 'p' :: 'm' :: ' ' :: (B ++ ' ' :: 'e' :: sub3 bsPm t))) ∧
      sub3 pmTxt
        (u ++ '(' :: (A ++ ' ' :: ('+' :: '-' :: ' ' :: (B ++ ')' :: 'e' :: t)))) =
        u ++ (A ++ ' ' :: ('+' :: '-' :: ' ' :: (B ++ ' ' :: 'e' :: sub3 pmTxt t)))) ∧
      formatLatex (("\"(1.23 \\pm 0.04)e+02\"").data) = ("1.23 \\pm 0.04 e+02").data :=
  ⟨⟨sub3A_match bsPm hA hB hu t, sub3A_match pmTxt hA hB hu t⟩, by decide⟩

/-- Witness for C4 at A = 1.23, B = 0.04, exponent tail +02. -/
theorem claim_C4_witness :
    (sub3 bsPm
        (([] : List Char) ++ '(' :: (("1.23").data ++ ' ' ::
          ('\\' :: 'p' :: 'm' :: ' ' :: (("0.04").data ++ ')' :: 'e' :: ("+02").data)))) =
        ([] : List Char) ++ (("1.23").data ++ ' ' ::
          ('\\' :: 'p' :: 'm' :: ' ' :: (("0.04").data ++ ' ' :: 'e' :: sub3 bsPm ("+02").data))) ∧
      sub3 pmTxt
        (([] : List Char) ++ '(' :: (("1.23").data ++ ' ' ::
          ('+' :: '-' :: ' ' :: (("0.04").data ++ ')' :: 'e' :: ("+02").data)))) =
        ([] : List Char) ++ (("1.23").data ++ ' ' ::
          ('+' :: '-' :: ' ' :: (("0.04").data ++ ' ' :: 'e' :: sub3 pmTxt ("+02").data)))) ∧
      formatLatex (("\"(1.23 \\pm 0.04)e+02\"").data) = ("1.23 \\pm 0.04 e+02").data :=
  claim_C4
    ⟨['1'], ['.', '2', '3'], by decide, by decide, by decide,
      Or.inr ⟨['2', '3'], by decide, by decide⟩⟩
    ⟨['0'], ['.', '0', '4'], by decide, by decide, by decide,
      Or.inr ⟨['0', '4'], by decide, by decide⟩⟩
    (fun c hc => absurd hc (List.not_mem_nil c))
    ("+02").data

/-- C6 counterexample: the quoted cell containing 42 has no
plus-slash-minus occurrence and no parenthesized exponent match, yet the
post-processing changes it: the double quotes are deleted. -/
theorem claim_C6_counterexample :
    hasPM (("\"42\"").data) = false ∧ has3 bsPm (("\"42\"").data) = false ∧
      formatLatex (("\"42\"").data) ≠ ("\"42\"").data ∧
      formatLatex (("\"42\"").data) = ("42").data := by
  decide

/-- C6 amended: the post-processing is a total function, and for every
input whose quote-stripped form contains no digit-plus-slash-minus-digit
occurrence and no parenthesized exponent match, it returns the
quote-stripped input — in particular, quote-free such inputs pass
through completely unchanged. -/
theorem claim_C6 (sym l : List Char)
    (h2 : hasPM (stripQ l) = false) (h3 : has3 sym (stripQ l) = false) :
    uarrayPost sym l = stripQ l := by
  rw [uarrayPost, pmSub, pmSubA_of_hasPM_false sym _ h2, sub3,
    sub3A_of_has3_false sym _ h3]

/-- Witness for C6: a cell with literal plus and minus characters
outside the pattern passes through unchanged (it contains no quotes). -/
theorem claim_C6_witness :
    (hasPM (stripQ ("1+2e-3").data) = false ∧
      has3 bsPm (stripQ ("1+2e-3").data) = false) ∧
      uarrayPost bsPm ("1+2e-3").data = stripQ ("1+2e-3").data ∧
      stripQ ("1+2e-3").data = ("1+2e-3").data :=
  ⟨⟨by decide, by decide⟩, claim_C6 bsPm _ (by decide) (by decide), by decide⟩

/-- C7 counterexample: the transformation is not idempotent on every
string: overlapping occurrences leave a fresh match in the output, which
a second application then rewrites. -/
theorem claim_C7_counterexample :
    formatLatex (formatLatex (("1+/-2+/-3").data)) ≠
      formatLatex (("1+/-2+/-3").data) := by
  decide

/-! ### Helper lemmas and claim theorems: Student and CDContxt -/

theorem t_df_col_of {s : ℤ} (hs : s = 1 ∨ s = 2 ∨ s = 3) :
    ∃ col, t_df_col s = some col := by
  rcases hs with rfl | rfl | rfl
  · exact ⟨t_col1, rfl⟩
  · exact ⟨t_col2, rfl⟩
  · exact ⟨t_col3, rfl⟩

theorem Student_init_sigma_err {n : ℕ} {s : ℤ}
    (hs : ¬(s = 1 ∨ s = 2 ∨ s = 3)) :
    Student_init n s = Except.error (StudentErr.valueError
      "Sigma must be amongst the following integers: [1, 2, 3]") := by
  rw [Student_init, if_pos hs]

theorem Student_init_len_err {n : ℕ} {s : ℤ} (hs : s = 1 ∨ s = 2 ∨ s = 3)
    (hn : ¬(2 ≤ n ∧ n ≤ 50)) :
    Student_init n s = Except.error (StudentErr.indexError
      "Series is too big, maximum length is 50") := by
  obtain ⟨col, hcol⟩ := t_df_col_of hs
  have hlk : t_df_lookup n s = none := by
    rw [t_df_lookup, hcol]
    show (if 2 ≤ n ∧ n ≤ 50 then some (col.getD (n - 2) 0) else none) = none
    rw [if_neg hn]
  rw [Student_init, if_neg (fun hc => hc hs), hlk]

theorem Student_init_ok {n : ℕ} {s : ℤ} (hs : s = 1 ∨ s = 2 ∨ s = 3)
    (hn : 2 ≤ n ∧ n ≤ 50) : ∃ t, Student_init n s = Except.ok t := by
  obtain ⟨col, hcol⟩ := t_df_col_of hs
  have hlk : t_df_lookup n s = some (col.getD (n - 2) 0) := by
    rw [t_df_lookup, hcol]
    show (if 2 ≤ n ∧ n ≤ 50 then some (col.getD (n - 2) 0) else none) =
      some (col.getD (n - 2) 0)
    rw [if_pos hn]
  exact ⟨col.getD (n - 2) 0, by rw [Student_init, if_neg (fun hc => hc hs), hlk]⟩

/-- C9: Student construction succeeds exactly when sigma is 1, 2 or 3
and the series length is between 2 and 50; any other sigma gives the
ValueError (checked first), and any length outside 2..50 — including 0
and 1 — gives the IndexError whose message says the series is too big. -/
theorem claim_C9 (n : ℕ) (s : ℤ) :
    ((∃ t, Student_init n s = Except.ok t) ↔
        ((s = 1 ∨ s = 2 ∨ s = 3) ∧ 2 ≤ n ∧ n ≤ 50)) ∧
      (¬(s = 1 ∨ s = 2 ∨ s = 3) →
        Student_init n s = Except.error (StudentErr.valueError
          "Sigma must be amongst the following integers: [1, 2, 3]")) ∧
      ((s = 1 ∨ s = 2 ∨ s = 3) → ¬(2 ≤ n ∧ n ≤ 50) →
        Student_init n s = Except.error (StudentErr.indexError
          "Series is too big, maximum length is 50")) := by
  refine ⟨⟨?_, ?_⟩, fun hs => Student_init_sigma_err hs,
    fun hs hn => Student_init_len_err hs hn⟩
  · intro ⟨t, ht⟩
    by_cases hs : s = 1 ∨ s = 2 ∨ s = 3
    · by_cases hn : 2 ≤ n ∧ n ≤ 50
      · exact ⟨hs, hn⟩
      · rw [Student_init_len_err hs hn] at ht
        cases ht
    · rw [Student_init_sigma_err hs] at ht
      cases ht
  · intro ⟨hs, hn⟩
    exact Student_init_ok hs hn

/-- Witness for C9 at concrete lengths and sigmas: success at (10, 2),
the too-big IndexError at lengths 51 and 1, the ValueError at sigma 4. -/
theorem claim_C9_witness :
    (∃ t, Student_init 10 2 = Except.ok t) ∧
      Student_init 51 1 = Except.error (StudentErr.indexError
        "Series is too big, maximum length is 50") ∧
      Student_init 1 3 = Except.error (StudentErr.indexError
        "Series is too big, maximum length is 50") ∧
      Student_init 10 4 = Except.error (StudentErr.valueError
        "Sigma must be amongst the following integers: [1, 2, 3]") :=
  ⟨(claim_C9 10 2).1.mpr ⟨Or.inr (Or.inl rfl), by decide⟩,
    (claim_C9 51 1).2.2 (Or.inl rfl) (by decide),
    (claim_C9 1 3).2.2 (Or.inr (Or.inr rfl)) (by decide),
    (claim_C9 10 4).2.1 (by decide)⟩

/-- C10: the working directory after leaving a CDContxt with-block is
the directory observed on entry, for any path (or none), any behavior
of the body, and both normal and exceptional termination; the body
outcome itself is passed through. -/
theorem claim_C10 (scriptDir : String) (m : CDContxt)
    (body : CDState → CDState × Except String Unit) (s : CDState) :
    getcwd (withCDContxt scriptDir m body s).1 = getcwd s ∧
      (withCDContxt scriptDir m body s).2 =
        (body (CDContxt.enter scriptDir m s).2).2 :=
  ⟨rfl, rfl⟩

/-! ### Helper lemmas: soundness of the step-3 matcher

A successful run of `mrun` from the initial state consumes exactly
`A SP SYM SP B close-paren e` with `A` and `B` full group matches, and
emits `A SP SYM SP B SP e`; this section proves that shape lemma
state by state. -/

theorem NumTail_nil : NumTail ([] : List Char) :=
  ⟨[], [], rfl, by simp, Or.inl rfl⟩

theorem NumTail_cons_digit {c : Char} {T : List Char} (hc : c.isDigit = true)
    (h : NumTail T) : NumTail (c :: T) := by
  obtain ⟨D1, D2, rfl, hD1, hD2⟩ := h
  exact ⟨c :: D1, D2, rfl,
    fun x hx => (List.mem_cons.mp hx).elim (fun he => he ▸ hc) (hD1 x), hD2⟩

theorem NumTail_dot {D : List Char} (hD : ∀ c ∈ D, c.isDigit = true) :
    NumTail ('.' :: D) :=
  ⟨[], '.' :: D, rfl, by simp, Or.inr ⟨D, rfl, hD⟩⟩

theorem NumTail_digits {D : List Char} (hD : ∀ c ∈ D, c.isDigit = true) :
    NumTail D :=
  ⟨D, [], by simp, hD, Or.inl rfl⟩

theorem NumLit_cons {d : Char} {T : List Char} (hd : d.isDigit = true)
    (h : NumTail T) : NumLit (d :: T) := by
  obtain ⟨D1, D2, rfl, hD1, hD2⟩ := h
  exact ⟨d :: D1, D2, rfl, by simp,
    fun x hx => (List.mem_cons.mp hx).elim (fun he => he ▸ hd) (hD1 x), hD2⟩

theorem NumLit_head_tail {A : List Char} (hA : NumLit A) :
    ∃ d T, A = d :: T ∧ d.isDigit = true ∧ NumTail T := by
  obtain ⟨D1, D2, rfl, hne, hD1, hD2⟩ := hA
  match D1, hne with
  | d :: D1', _ =>
      exact ⟨d, D1' ++ D2, rfl, hD1 d (List.mem_cons_self d D1'),
        D1', D2, rfl, fun c hc => hD1 c (List.mem_cons_of_mem d hc), hD2⟩

theorem NumTail_of_NumLit {A : List Char} (hA : NumLit A) : NumTail A := by
  obtain ⟨D1, D2, rfl, _, hD1, hD2⟩ := hA
  exact ⟨D1, D2, rfl, hD1, hD2⟩

theorem NumLit_chars {A : List Char} (hA : NumLit A) :
    ∀ c ∈ A, c.isDigit = true ∨ c = '.' := by
  obtain ⟨D1, D2, rfl, _, hD1, hD2⟩ := hA
  intro c hc
  rcases List.mem_append.mp hc with h | h
  · exact Or.inl (hD1 c h)
  · rcases hD2 with rfl | ⟨D3, rfl, hD3⟩
    · cases h
    · rcases List.mem_cons.mp h with rfl | h'
      · exact Or.inr rfl
      · exact Or.inl (hD3 c h')

theorem mrun_ex_shape {sym l : List Char} {cs : List Char} {k : ℕ}
    (h : mrun sym MSt.ex l = some (cs, k)) :
    ∃ rest, l = 'e' :: rest ∧ cs = ['e'] := by
  cases l with
  | nil => rw [mrun_nil] at h; cases h
  | cons a t =>
      rw [show mrun sym MSt.ex (a :: t) =
          (if a = 'e' then some (['e'], 1) else none) from rfl] at h
      split_ifs at h with he
      injection h with h1
      injection h1 with h2 h3
      exact ⟨t, by rw [he], h2.symm⟩

theorem mrun_b2_shape (sym : List Char) :
    ∀ (l : List Char) {cs : List Char} {k : ℕ},
      mrun sym MSt.b2 l = some (cs, k) →
      ∃ D rest, (∀ c ∈ D, c.isDigit = true) ∧
        l = D ++ ')' :: 'e' :: rest ∧ cs = D ++ [' ', 'e'] := by
  intro l
  induction l with
  | nil => intro cs k h; rw [mrun_nil] at h; cases h
  | cons a t ih =>
      intro cs k h
      rw [show mrun sym MSt.b2 (a :: t) =
          (if a.isDigit = true then addC a (mrun sym MSt.b2 t)
           else if a = ')' then addC ' ' (mrun sym MSt.ex t)
           else none) from rfl] at h
      split_ifs at h with h1 h2
      · obtain ⟨cs', k', hm, rfl, -⟩ := addC_eq_some h
        obtain ⟨D, rest, hD, rfl, rfl⟩ := ih hm
        exact ⟨a :: D, rest,
          fun c hc => (List.mem_cons.mp hc).elim (fun he => he ▸ h1) (hD c),
          rfl, rfl⟩
      · obtain ⟨cs', k', hm, rfl, -⟩ := addC_eq_some h
        obtain ⟨rest, rfl, rfl⟩ := mrun_ex_shape hm
        exact ⟨[], rest, by simp, by simp [h2], rfl⟩

theorem mrun_b1_shape (sym : List Char) :
    ∀ (l : List Char) {cs : List Char} {k : ℕ},
      mrun sym MSt.b1 l = some (cs, k) →
      ∃ T rest, NumTail T ∧ l = T ++ ')' :: 'e' :: rest ∧ cs = T ++ [' ', 'e'] := by
  intro l
  induction l with
  | nil => intro cs k h; rw [mrun_nil] at h; cases h
  | cons a t ih =>
      intro cs k h
      rw [show mrun sym MSt.b1 (a :: t) =
          (if a.isDigit = true then addC a (mrun sym MSt.b1 t)
           else if a = '.' then addC a (mrun sym MSt.b2 t)
           else if a = ')' then addC ' ' (mrun sym MSt.ex t)
           else none) from rfl] at h
      split_ifs at h with h1 h2 h3
      · obtain ⟨cs', k', hm, rfl, -⟩ := addC_eq_some h
        obtain ⟨T, rest, hT, rfl, rfl⟩ := ih hm
        exact ⟨a :: T, rest, NumTail_cons_digit h1 hT, rfl, rfl⟩
      · obtain ⟨cs', k', hm, rfl, -⟩ := addC_eq_some h
        obtain ⟨D, rest, hD, rfl, rfl⟩ := mrun_b2_shape sym t hm
        exact ⟨'.' :: D, rest, NumTail_dot hD, by simp [h2], by simp [h2]⟩
      · obtain ⟨cs', k', hm, rfl, -⟩ := addC_eq_some h
        obtain ⟨rest, rfl, rfl⟩ := mrun_ex_shape hm
        exact ⟨[], rest, NumTail_nil, by simp [h3], rfl⟩

theorem mrun_litnil_shape (sym : List Char) (l : List Char) {cs : List Char}
    {k : ℕ} (h : mrun sym (MSt.lit []) l = some (cs, k)) :
    ∃ B rest, NumLit B ∧ l = B ++ ')' :: 'e' :: rest ∧ cs = B ++ [' ', 'e'] := by
  cases l with
  | nil => rw [mrun_nil] at h; cases h
  | cons a t =>
      rw [show mrun sym (MSt.lit []) (a :: t) =
          (if a.isDigit = true then addC a (mrun sym MSt.b1 t) else none)
        from rfl] at h
      split_ifs at h with h1
      obtain ⟨cs', k', hm, rfl, -⟩ := addC_eq_some h
      obtain ⟨T, rest, hT, rfl, rfl⟩ := mrun_b1_shape sym t hm
      exact ⟨a :: T, rest, NumLit_cons h1 hT, rfl, rfl⟩

theorem mrun_lit_shape (sym : List Char) :
    ∀ (x l : List Char) {cs : List Char} {k : ℕ},
      mrun sym (MSt.lit x) l = some (cs, k) →
      ∃ B rest, NumLit B ∧ l = x ++ (B ++ ')' :: 'e' :: rest) ∧
        cs = x ++ (B ++ [' ', 'e']) := by
  intro x
  induction x with
  | nil =>
      intro l cs k h
      obtain ⟨B, rest, hB, rfl, rfl⟩ := mrun_litnil_shape sym l h
      exact ⟨B, rest, hB, rfl, rfl⟩
  | cons p ps ih =>
      intro l cs k h
      cases l with
      | nil => rw [mrun_nil] at h; cases h
      | cons a t =>
          rw [show mrun sym (MSt.lit (p :: ps)) (a :: t) =
              (if a = p then addC a (mrun sym (MSt.lit ps) t) else none)
            from rfl] at h
          split_ifs at h with h1
          obtain ⟨cs', k', hm, rfl, -⟩ := addC_eq_some h
          obtain ⟨B, rest, hB, rfl, rfl⟩ := ih t hm
          exact ⟨B, rest, hB, by simp [h1], by simp [h1]⟩

theorem mrun_a2_shape (sym : List Char) :
    ∀ (l : List Char) {cs : List Char} {k : ℕ},
      mrun sym MSt.a2 l = some (cs, k) →
      ∃ D B rest, (∀ c ∈ D, c.isDigit = true) ∧ NumLit B ∧
        l = D ++ ' ' :: (sym ++ ' ' :: (B ++ ')' :: 'e' :: rest)) ∧
        cs = D ++ ' ' :: (sym ++ ' ' :: (B ++ [' ', 'e'])) := by
  intro l
  induction l with
  | nil => intro cs k h; rw [mrun_nil] at h; cases h
  | cons a t ih =>
      intro cs k h
      rw [show mrun sym MSt.a2 (a :: t) =
          (if a.isDigit = true then addC a (mrun sym MSt.a2 t)
           else if a = ' ' then addC a (mrun sym (MSt.lit (sym ++ [' '])) t)
           else none) from rfl] at h
      split_ifs at h with h1 h2
      · obtain ⟨cs', k', hm, rfl, -⟩ := addC_eq_some h
        obtain ⟨D, B, rest, hD, hB, rfl, rfl⟩ := ih hm
        exact ⟨a :: D, B, rest,
          fun c hc => (List.mem_cons.mp hc).elim (fun he => he ▸ h1) (hD c),
          hB, rfl, rfl⟩
      · obtain ⟨cs', k', hm, rfl, -⟩ := addC_eq_some h
        obtain ⟨B, rest, hB, rfl, rfl⟩ := mrun_lit_shape sym (sym ++ [' ']) t hm
        refine ⟨[], B, rest, by simp, hB, ?_, ?_⟩
        · rw [h2]
          simp
        · rw [h2]
          simp

theorem mrun_a1_shape (sym : List Char) :
    ∀ (l : List Char) {cs : List Char} {k : ℕ},
      mrun sym MSt.a1 l = some (cs, k) →
      ∃ T B rest, NumTail T ∧ NumLit B ∧
        l = T ++ ' ' :: (sym ++ ' ' :: (B ++ ')' :: 'e' :: rest)) ∧
        cs = T ++ ' ' :: (sym ++ ' ' :: (B ++ [' ', 'e'])) := by
  intro l
  induction l with
  | nil => intro cs k h; rw [mrun_nil] at h; cases h
  | cons a t ih =>
      intro cs k h
      rw [show mrun sym MSt.a1 (a :: t) =
          (if a.isDigit = true then addC a (mrun sym MSt.a1 t)
           else if a = '.' then addC a (mrun sym MSt.a2 t)
           else if a = ' ' then addC a (mrun sym (MSt.lit (sym ++ [' '])) t)
           else none) from rfl] at h
      split_ifs at h with h1 h2 h3
      · obtain ⟨cs', k', hm, rfl, -⟩ := addC_eq_some h
        obtain ⟨T, B, rest, hT, hB, rfl, rfl⟩ := ih hm
        exact ⟨a :: T, B, rest, NumTail_cons_digit h1 hT, hB, rfl, rfl⟩
      · obtain ⟨cs', k', hm, rfl, -⟩ := addC_eq_some h
        obtain ⟨D, B, rest, hD, hB, rfl, rfl⟩ := mrun_a2_shape sym t hm
        exact ⟨'.' :: D, B, rest, NumTail_dot hD, hB, by simp [h2], by simp [h2]⟩
      · obtain ⟨cs', k', hm, rfl, -⟩ := addC_eq_some h
        obtain ⟨B, rest, hB, rfl, rfl⟩ := mrun_lit_shape sym (sym ++ [' ']) t hm
        refine ⟨[], B, rest, NumTail_nil, hB, ?_, ?_⟩
        · rw [h3]
          simp
        · rw [h3]
          simp

theorem mrun_a0_shape (sym : List Char) (l : List Char) {cs : List Char}
    {k : ℕ} (h : mrun sym MSt.a0 l = some (cs, k)) :
    ∃ A B rest, NumLit A ∧ NumLit B ∧
      l = A ++ ' ' :: (sym ++ ' ' :: (B ++ ')' :: 'e' :: rest)) ∧
      cs = A ++ ' ' :: (sym ++ ' ' :: (B ++ [' ', 'e'])) := by
  cases l with
  | nil => rw [mrun_nil] at h; cases h
  | cons a t =>
      rw [show mrun sym MSt.a0 (a :: t) =
          (if a.isDigit = true then addC a (mrun sym MSt.a1 t) else none)
        from rfl] at h
      split_ifs at h with h1
      obtain ⟨cs', k', hm, rfl, -⟩ := addC_eq_some h
      obtain ⟨T, B, rest, hT, hB, rfl, rfl⟩ := mrun_a1_shape sym t hm
      exact ⟨a :: T, B, rest, NumLit_cons h1 hT, hB, rfl, rfl⟩

/-! ### Helper lemmas: every matcher run dies inside a replaced block

The replacement emitted for a match is `A SP SYM SP B SP e`; restarted
on it (from any reachable state), the matcher always fails: the closing
parenthesis it would need before the final `e` has been turned into a
space. -/

theorem mrun_b1_space (sym l : List Char) : mrun sym MSt.b1 (' ' :: l) = none := rfl

theorem mrun_b2_space (sym l : List Char) : mrun sym MSt.b2 (' ' :: l) = none := rfl

theorem mrun_b2_dot (sym l : List Char) : mrun sym MSt.b2 ('.' :: l) = none := rfl

theorem mrun_a2_dot (sym l : List Char) : mrun sym MSt.a2 ('.' :: l) = none := rfl

theorem addC_none (c : Char) : addC c none = none := rfl

theorem mrun_b1_tail_death (sym : List Char) {T : List Char} (hT : NumTail T)
    (l : List Char) : mrun sym MSt.b1 (T ++ ' ' :: l) = none := by
  obtain ⟨D1, D2, rfl, hD1, hD2⟩ := hT
  rcases hD2 with rfl | ⟨D3, rfl, hD3⟩
  · rw [List.append_nil, mrun_digits sym (Or.inr (Or.inr (Or.inl rfl))) D1 hD1,
      mrun_b1_space]
    rfl
  · rw [List.append_assoc, List.cons_append,
      mrun_digits sym (Or.inr (Or.inr (Or.inl rfl))) D1 hD1, mrun_b1_dot,
      mrun_digits sym (Or.inr (Or.inr (Or.inr rfl))) D3 hD3, mrun_b2_space]
    rfl

theorem mrun_b2_tail_death (sym : List Char) {T : List Char} (hT : NumTail T)
    (l : List Char) : mrun sym MSt.b2 (T ++ ' ' :: l) = none := by
  obtain ⟨D1, D2, rfl, hD1, hD2⟩ := hT
  rcases hD2 with rfl | ⟨D3, rfl, hD3⟩
  · rw [List.append_nil, mrun_digits sym (Or.inr (Or.inr (Or.inr rfl))) D1 hD1,
      mrun_b2_space]
    rfl
  · rw [List.append_assoc, List.cons_append,
      mrun_digits sym (Or.inr (Or.inr (Or.inr rfl))) D1 hD1, mrun_b2_dot]
    rfl

theorem mrun_litnil_death (sym : List Char) {B : List Char} (hB : NumLit B)
    (l : List Char) : mrun sym (MSt.lit []) (B ++ ' ' :: l) = none := by
  obtain ⟨d, T, rfl, hd, hT⟩ := NumLit_head_tail hB
  rw [List.cons_append, mrun_litnil_digit sym _ hd, mrun_b1_tail_death sym hT l,
    addC_none]

theorem mrun_a1_digit (sym l : List Char) {d : Char} (hd : d.isDigit = true) :
    mrun sym MSt.a1 (d :: l) = addC d (mrun sym MSt.a1 l) := by
  simp only [mrun, hd, if_true]

theorem mrun_a1_tail_death (sym : List Char) {T B : List Char} (hT : NumTail T)
    (hB : NumLit B) (z : List Char) :
    mrun sym MSt.a1 (T ++ ' ' :: (sym ++ ' ' :: (B ++ ' ' :: z))) = none := by
  have hlit : mrun sym (MSt.lit (sym ++ [' ']))
      (sym ++ ' ' :: (B ++ ' ' :: z)) = none := by
    have hx : sym ++ ' ' :: (B ++ ' ' :: z) =
        (sym ++ [' ']) ++ (B ++ ' ' :: z) := by simp
    rw [hx, mrun_lit sym (sym ++ [' ']), mrun_litnil_death sym hB z]
    rfl
  obtain ⟨D1, D2, rfl, hD1, hD2⟩ := hT
  rcases hD2 with rfl | ⟨D3, rfl, hD3⟩
  · rw [List.append_nil, mrun_digits sym (Or.inl rfl) D1 hD1, mrun_a1_space,
      hlit, addC_none]
    rfl
  · rw [List.append_assoc, List.cons_append,
      mrun_digits sym (Or.inl rfl) D1 hD1, mrun_a1_dot,
      mrun_digits sym (Or.inr (Or.inl rfl)) D3 hD3, mrun_a2_space, hlit,
      addC_none]
    rfl

theorem mrun_a2_tail_death (sym : List Char) {T B : List Char} (hT : NumTail T)
    (hB : NumLit B) (z : List Char) :
    mrun sym MSt.a2 (T ++ ' ' :: (sym ++ ' ' :: (B ++ ' ' :: z))) = none := by
  have hlit : mrun sym (MSt.lit (sym ++ [' ']))
      (sym ++ ' ' :: (B ++ ' ' :: z)) = none := by
    have hx : sym ++ ' ' :: (B ++ ' ' :: z) =
        (sym ++ [' ']) ++ (B ++ ' ' :: z) := by simp
    rw [hx, mrun_lit sym (sym ++ [' ']), mrun_litnil_death sym hB z]
    rfl
  obtain ⟨D1, D2, rfl, hD1, hD2⟩ := hT
  rcases hD2 with rfl | ⟨D3, rfl, hD3⟩
  · rw [List.append_nil, mrun_digits sym (Or.inr (Or.inl rfl)) D1 hD1,
      mrun_a2_space, hlit, addC_none]
    rfl
  · rw [List.append_assoc, List.cons_append,
      mrun_digits sym (Or.inr (Or.inl rfl)) D1 hD1, mrun_a2_dot]
    rfl

/-- A digit never equals a character of the symbol or a space. -/
theorem digit_ne_of_symchar {sym : List Char} (hsym : SymOK sym) {p d : Char}
    (hp : p ∈ sym ++ [' ']) (hd : d.isDigit = true) : d ≠ p := by
  intro he
  rcases List.mem_append.mp hp with h | h
  · rw [he, hsym.2 p h] at hd
    cases hd
  · rcases List.mem_cons.mp h with rfl | h'
    · rw [he] at hd
      cases hd
    · cases h'

/-- From any reachable state, the matcher fails on a replaced block. -/
theorem mrun_kill (sym : List Char) (hsym : SymOK sym) {A B : List Char}
    (hA : NumLit A) (hB : NumLit B) (z : List Char) :
    ∀ st, GoodSt sym st →
      mrun sym st (A ++ ' ' :: (sym ++ ' ' :: (B ++ ' ' :: 'e' :: z))) = none := by
  intro st hst
  cases st with
  | a0 =>
      obtain ⟨d, T, rfl, hd, hT⟩ := NumLit_head_tail hA
      rw [List.cons_append, mrun_a0_digit sym _ hd,
        mrun_a1_tail_death sym hT hB ('e' :: z), addC_none]
  | a1 => exact mrun_a1_tail_death sym (NumTail_of_NumLit hA) hB ('e' :: z)
  | a2 => exact mrun_a2_tail_death sym (NumTail_of_NumLit hA) hB ('e' :: z)
  | lit x =>
      cases x with
      | nil => exact mrun_litnil_death sym hA (sym ++ ' ' :: (B ++ ' ' :: 'e' :: z))
      | cons p ps =>
          obtain ⟨d, T, rfl, hd, hT⟩ := NumLit_head_tail hA
          have hp : p ∈ sym ++ [' '] := hst.subset (List.mem_cons_self p ps)
          rw [List.cons_append,
            show mrun sym (MSt.lit (p :: ps))
                (d :: (T ++ ' ' :: (sym ++ ' ' :: (B ++ ' ' :: 'e' :: z)))) =
              (if d = p then
                addC d (mrun sym (MSt.lit ps)
                  (T ++ ' ' :: (sym ++ ' ' :: (B ++ ' ' :: 'e' :: z))))
               else none) from rfl,
            if_neg (digit_ne_of_symchar hsym hp hd)]
  | b1 => exact mrun_b1_tail_death sym (NumTail_of_NumLit hA) _
  | b2 => exact mrun_b2_tail_death sym (NumTail_of_NumLit hA) _
  | ex =>
      obtain ⟨d, T, rfl, hd, hT⟩ := NumLit_head_tail hA
      rw [List.cons_append,
        show mrun sym MSt.ex
            (d :: (T ++ ' ' :: (sym ++ ' ' :: (B ++ ' ' :: 'e' :: z)))) =
          (if d = 'e' then some (['e'], 1) else none) from rfl,
        if_neg (fun he => by rw [he] at hd; cases hd)]

/-- One step of the matcher from a reachable state: it rejects, or it
consumes the character moving to a reachable state, or it is the final
accepting step. -/
theorem mrun_step_cases (sym : List Char) (st : MSt) (hst : GoodSt sym st)
    (c : Char) :
    (∀ x, mrun sym st (c :: x) = none) ∨
      (∃ y st', GoodSt sym st' ∧
        ∀ x, mrun sym st (c :: x) = addC y (mrun sym st' x)) ∨
      (st = MSt.ex ∧ c = 'e') := by
  cases st with
  | a0 =>
      by_cases hc : c.isDigit = true
      · exact Or.inr (Or.inl ⟨c, MSt.a1, trivial, fun x => by simp [mrun, hc]⟩)
      · exact Or.inl (fun x => by simp [mrun, hc])
  | a1 =>
      by_cases hc : c.isDigit = true
      · exact Or.inr (Or.inl ⟨c, MSt.a1, trivial, fun x => by simp [mrun, hc]⟩)
      · by_cases hdot : c = '.'
        · exact Or.inr (Or.inl ⟨c, MSt.a2, trivial,
            fun x => by simp [mrun, hc, hdot]⟩)
        · by_cases hsp : c = ' '
          · exact Or.inr (Or.inl ⟨c, MSt.lit (sym ++ [' ']), List.suffix_refl _,
              fun x => by simp [mrun, hc, hdot, hsp]⟩)
          · exact Or.inl (fun x => by simp [mrun, hc, hdot, hsp])
  | a2 =>
      by_cases hc : c.isDigit = true
      · exact Or.inr (Or.inl ⟨c, MSt.a2, trivial, fun x => by simp [mrun, hc]⟩)
      · by_cases hsp : c = ' '
        · exact Or.inr (Or.inl ⟨c, MSt.lit (sym ++ [' ']), List.suffix_refl _,
            fun x => by simp [mrun, hc, hsp]⟩)
        · exact Or.inl (fun x => by simp [mrun, hc, hsp])
  | lit pend =>
      cases pend with
      | nil =>
          by_cases hc : c.isDigit = true
          · exact Or.inr (Or.inl ⟨c, MSt.b1, trivial,
              fun x => by simp [mrun, hc]⟩)
          · exact Or.inl (fun x => by simp [mrun, hc])
      | cons p ps =>
          by_cases hc : c = p
          · refine Or.inr (Or.inl ⟨c, MSt.lit ps, ?_, fun x => by simp [mrun, hc]⟩)
            exact (List.suffix_cons p ps).trans hst
          · exact Or.inl (fun x => by simp [mrun, hc])
  | b1 =>
      by_cases hc : c.isDigit = true
      · exact Or.inr (Or.inl ⟨c, MSt.b1, trivial, fun x => by simp [mrun, hc]⟩)
      · by_cases hdot : c = '.'
        · exact Or.inr (Or.inl ⟨c, MSt.b2, trivial,
            fun x => by simp [mrun, hc, hdot]⟩)
        · by_cases hcp : c = ')'
          · exact Or.inr (Or.inl ⟨' ', MSt.ex, trivial,
              fun x => by simp [mrun, hc, hdot, hcp]⟩)
          · exact Or.inl (fun x => by simp [mrun, hc, hdot, hcp])
  | b2 =>
      by_cases hc : c.isDigit = true
      · exact Or.inr (Or.inl ⟨c, MSt.b2, trivial, fun x => by simp [mrun, hc]⟩)
      · by_cases hcp : c = ')'
        · exact Or.inr (Or.inl ⟨' ', MSt.ex, trivial,
            fun x => by simp [mrun, hc, hcp]⟩)
        · exact Or.inl (fun x => by simp [mrun, hc, hcp])
  | ex =>
      by_cases hc : c = 'e'
      · exact Or.inr (Or.inr ⟨rfl, hc⟩)
      · exact Or.inl (fun x => by simp [mrun, hc])

/-- From any reachable state the matcher rejects an opening
parenthesis. -/
theorem mrun_paren_reject (sym : List Char) (hsym : SymOK sym) (st : MSt)
    (hst : GoodSt sym st) (x : List Char) :
    mrun sym st ('(' :: x) = none := by
  cases st with
  | a0 => simp [mrun]
  | a1 => simp [mrun]
  | a2 => simp [mrun]
  | lit pend =>
      cases pend with
      | nil => simp [mrun]
      | cons p ps =>
          have hp : p ∈ sym ++ [' '] := hst.subset (List.mem_cons_self p ps)
          have hne : ('(' : Char) ≠ p := by
            intro he
            rcases List.mem_append.mp hp with h | h
            · exact hsym.1 (he ▸ h)
            · rcases List.mem_cons.mp h with h' | h'
              · rw [← he] at h'
                cases h'
              · cases h'
          simp [mrun, hne]
  | b1 => simp [mrun]
  | b2 => simp [mrun]
  | ex => simp [mrun]

/-- Preservation: if a matcher run from a reachable state fails on a
string, it also fails on the output of the step-3 scanner for that
string.  (Replaced blocks kill every run, copied characters transition
identically, and an opening parenthesis is rejected either way.) -/
theorem mrun_none_sub3 (sym : List Char) (hsym : SymOK sym) :
    ∀ (t : List Char) (st : MSt), GoodSt sym st → mrun sym st t = none →
      mrun sym st (sub3A sym 0 t) = none := by
  suffices h : ∀ (n : ℕ) (t : List Char), t.length ≤ n → ∀ (st : MSt),
      GoodSt sym st → mrun sym st t = none →
      mrun sym st (sub3A sym 0 t) = none from
    fun t => h t.length t le_rfl
  intro n
  induction n with
  | zero =>
      intro t ht st _ _
      rw [List.length_eq_zero.mp (Nat.le_zero.mp ht), sub3A_nil, mrun_nil]
  | succ n ihn =>
      intro t ht st hst hnone
      cases t with
      | nil => rw [sub3A_nil, mrun_nil]
      | cons c t' =>
          have ht' : t'.length ≤ n := by
            rw [List.length_cons] at ht
            omega
          by_cases hc : c = '('
          · subst hc
            cases hm : mrun sym MSt.a0 t' with
            | none =>
                rw [sub3A_paren_none sym hm]
                exact mrun_paren_reject sym hsym st hst _
            | some p =>
                obtain ⟨cs, k⟩ := p
                rw [sub3A_paren_some sym hm]
                obtain ⟨A, B, rest, hA, hB, hl, hcs⟩ := mrun_a0_shape sym t' hm
                subst hl
                subst hcs
                have hfull := mrun_full sym hA hB rest
                rw [hfull] at hm
                injection hm with hm1
                injection hm1 with hm2 hm3
                have hx : A ++ ' ' :: (sym ++ ' ' :: (B ++ ')' :: 'e' :: rest)) =
                    (A ++ ' ' :: (sym ++ ' ' :: (B ++ [')', 'e']))) ++ rest := by
                  simp
                rw [← hm3, hx, sub3A_skip]
                have hy : (A ++ ' ' :: (sym ++ ' ' :: (B ++ [' ', 'e']))) ++
                      sub3A sym 0 rest =
                    A ++ ' ' :: (sym ++ ' ' ::
                      (B ++ ' ' :: 'e' :: sub3A sym 0 rest)) := by
                  simp
                rw [hy]
                exact mrun_kill sym hsym hA hB _ st hst
          · rw [sub3A_cons_ne sym hc]
            rcases mrun_step_cases sym st hst c with
              hrej | ⟨y, st', hg', hstep⟩ | ⟨rfl, rfl⟩
            · exact hrej _
            · have h1 : mrun sym st' t' = none := by
                rw [hstep t'] at hnone
                exact addC_none_iff.mp hnone
              rw [hstep (sub3A sym 0 t'), ihn t' ht' st' hg' h1, addC_none]
            · rw [show mrun sym MSt.ex ('e' :: t') = some (['e'], 1) from rfl]
                at hnone
              cases hnone

/-- Positions inside a parenthesis-free prefix contribute no step-3
match. -/
theorem has3_append_ne (sym : List Char) :
    ∀ {x : List Char}, (∀ c ∈ x, c ≠ '(') → ∀ z,
      has3 sym (x ++ z) = has3 sym z := by
  intro x
  induction x with
  | nil => intro _ z; rfl
  | cons c x' ih =>
      intro hx z
      rw [List.cons_append, has3_cons]
      have hc : (c == '(') = false :=
        beq_eq_false_iff_ne.mpr (hx c (List.mem_cons_self c x'))
      rw [hc, Bool.false_and, Bool.false_or, ih (fun a ha => hx a (List.mem_cons_of_mem c ha)) z]

/-- The characters of a replaced block are digits, dots, spaces, the
letter e and symbol characters — never an opening parenthesis. -/
theorem block_no_paren (sym : List Char) (hsym : SymOK sym) {A B : List Char}
    (hA : NumLit A) (hB : NumLit B) :
    ∀ c ∈ A ++ ' ' :: (sym ++ ' ' :: (B ++ [' ', 'e'])), c ≠ '(' := by
  intro c hc he
  subst he
  rcases List.mem_append.mp hc with h | h
  · rcases NumLit_chars hA _ h with h' | h'
    · cases h'
    · cases h'
  · rcases List.mem_cons.mp h with h' | h'
    · cases h'
    rcases List.mem_append.mp h' with h'' | h''
    · exact hsym.1 h''
    rcases List.mem_cons.mp h'' with h3 | h3
    · cases h3
    rcases List.mem_append.mp h3 with h4 | h4
    · rcases NumLit_chars hB _ h4 with h5 | h5
      · cases h5
      · cases h5
    · rcases List.mem_cons.mp h4 with h5 | h5
      · cases h5
      rcases List.mem_cons.mp h5 with h6 | h6
      · cases h6
      · cases h6

/-- The output of the step-3 scanner contains no position where the
step-3 pattern matches: the substitution reaches a fixed point in one
pass. -/
theorem has3_sub3_false (sym : List Char) (hsym : SymOK sym) :
    ∀ y : List Char, has3 sym (sub3A sym 0 y) = false := by
  suffices h : ∀ (n : ℕ) (y : List Char), y.length ≤ n →
      has3 sym (sub3A sym 0 y) = false from fun y => h y.length y le_rfl
  intro n
  induction n with
  | zero =>
      intro y hy
      rw [List.length_eq_zero.mp (Nat.le_zero.mp hy), sub3A_nil]
      rfl
  | succ n ihn =>
      intro y hy
      cases y with
      | nil => rw [sub3A_nil]; rfl
      | cons c t =>
          have ht : t.length ≤ n := by
            rw [List.length_cons] at hy
            omega
          by_cases hc : c = '('
          · subst hc
            cases hm : mrun sym MSt.a0 t with
            | none =>
                rw [sub3A_paren_none sym hm, has3_cons,
                  mrun_none_sub3 sym hsym t MSt.a0 trivial hm, ihn t ht]
                rfl
            | some p =>
                obtain ⟨cs, k⟩ := p
                rw [sub3A_paren_some sym hm]
                obtain ⟨A, B, rest, hA, hB, hl, hcs⟩ := mrun_a0_shape sym t hm
                subst hl
                subst hcs
                have hfull := mrun_full sym hA hB rest
                rw [hfull] at hm
                injection hm with hm1
                injection hm1 with hm2 hm3
                have hx : A ++ ' ' :: (sym ++ ' ' :: (B ++ ')' :: 'e' :: rest)) =
                    (A ++ ' ' :: (sym ++ ' ' :: (B ++ [')', 'e']))) ++ rest := by
                  simp
                rw [← hm3, hx, sub3A_skip,
                  has3_append_ne sym (block_no_paren sym hsym hA hB)]
                have hrest : rest.length ≤ n := by
                  rw [hx, List.length_cons, List.length_append] at hy
                  omega
                exact ihn rest hrest
          · rw [sub3A_cons_ne sym hc, has3_cons,
              beq_eq_false_iff_ne.mpr hc, Bool.false_and, Bool.false_or]
            exact ihn t ht

/-- C7 amended: the post-processing is idempotent on every input whose
output contains no remaining digit-plus-slash-minus-digit occurrence —
exactly the qualification the spec itself attaches.  The other two steps
need no condition: the output never contains a double quote, and the
output of the parenthesis normalization never contains a fresh match of
its own pattern (the closing parenthesis has been replaced by a space),
so a second pass leaves both invariant. -/
theorem claim_C7 (sym l : List Char) (hq : '"' ∉ sym) (hsym : SymOK sym)
    (h2 : hasPM (uarrayPost sym l) = false) :
    uarrayPost sym (uarrayPost sym l) = uarrayPost sym l := by
  have h3 : has3 sym (uarrayPost sym l) = false := by
    rw [uarrayPost, sub3]
    exact has3_sub3_false sym hsym _
  rw [show uarrayPost sym (uarrayPost sym l) =
      sub3 sym (pmSub sym (stripQ (uarrayPost sym l))) from rfl,
    stripQ_eq_self (uarrayPost_quote_not_mem sym l hq),
    pmSub, pmSubA_of_hasPM_false sym _ h2, sub3,
    sub3A_of_has3_false sym _ h3]

/-- Witness for C7 at the spec example cell. -/
theorem claim_C7_witness :
    ('"' ∉ bsPm ∧ SymOK bsPm ∧
      hasPM (uarrayPost bsPm ("\"3.14+/-0.07\"").data) = false) ∧
      uarrayPost bsPm (uarrayPost bsPm ("\"3.14+/-0.07\"").data) =
        uarrayPost bsPm ("\"3.14+/-0.07\"").data :=
  ⟨⟨by decide, ⟨by decide, by decide⟩, by decide⟩,
    claim_C7 bsPm _ (by decide) ⟨by decide, by decide⟩ (by decide)⟩

end LabTool
